import Mathlib

/-!
Verification development for the mdxlate translation-run orchestrator
(src/mdxlate/translator.py).  The Python source is shallowly embedded as
executable Lean definitions: paths are component lists, file contents are
byte lists, the async run is serialized (the event loop is single-threaded
and all cache keys touched by distinct tasks are distinct, so interleaved
task steps commute), and the fallible translation backend is an explicit
function argument.  The cache module (mdxlate/cache.py) is not part of the
available sources and is modelled from its specification.
-/

namespace Mdxlate

/-!
## Bytes and UTF-8

`Translator.process_file` reads raw bytes (line 91) and decodes them with
`bytes.decode()` (line 92), which is strict UTF-8; `_write_one` writes text
back with `encoding="utf-8"` (line 85).  We embed bytes as `List Nat` and
give the strict UTF-8 decoder (rejecting overlong forms, surrogates and
code points above U+10FFFF, exactly as CPython does) together with the
encoder, and prove the round-trip used by the base-language pass-through.
-/

/-- A UTF-8 continuation byte: `0x80 ≤ b < 0xC0`. -/
abbrev IsContByte (b : Nat) : Prop := 0x80 ≤ b ∧ b < 0xC0

/-- Constraint on the second byte of a three-byte sequence.  The special
cases for lead bytes `0xE0` and `0xED` exclude overlong encodings and the
surrogate range `U+D800`–`U+DFFF`, which CPython's strict decoder rejects. -/
abbrev Cont2Ok (b b2 : Nat) : Prop :=
  (b = 0xE0 ∧ 0xA0 ≤ b2 ∧ b2 < 0xC0) ∨
  (b = 0xED ∧ 0x80 ≤ b2 ∧ b2 < 0xA0) ∨
  (b ≠ 0xE0 ∧ b ≠ 0xED ∧ IsContByte b2)

/-- Constraint on the second byte of a four-byte sequence.  The special
cases for lead bytes `0xF0` and `0xF4` exclude overlong encodings and code
points above `U+10FFFF`. -/
abbrev Cont3Ok (b b2 : Nat) : Prop :=
  (b = 0xF0 ∧ 0x90 ≤ b2 ∧ b2 < 0xC0) ∨
  (b = 0xF4 ∧ 0x80 ≤ b2 ∧ b2 < 0x90) ∨
  (b ≠ 0xF0 ∧ b ≠ 0xF4 ∧ IsContByte b2)

/-- Decode one code point from the front of a byte list (strict UTF-8).
Lead bytes `0x80`–`0xC1` and `0xF5`–`0xFF` are invalid. -/
def decodeOne : List Nat → Option (Nat × List Nat)
  | [] => none
  | b :: bs =>
    if b < 0x80 then
      some (b, bs)
    else
      match bs with
      | [] => none
      | b2 :: bs2 =>
        if 0xC2 ≤ b ∧ b < 0xE0 ∧ IsContByte b2 then
          some ((b - 0xC0) * 0x40 + (b2 - 0x80), bs2)
        else
          match bs2 with
          | [] => none
          | b3 :: bs3 =>
            if 0xE0 ≤ b ∧ b < 0xF0 ∧ Cont2Ok b b2 ∧ IsContByte b3 then
              some ((b - 0xE0) * 0x1000 + (b2 - 0x80) * 0x40 + (b3 - 0x80), bs3)
            else
              match bs3 with
              | [] => none
              | b4 :: bs4 =>
                if 0xF0 ≤ b ∧ b < 0xF5 ∧ Cont3Ok b b2 ∧ IsContByte b3 ∧ IsContByte b4 then
                  some ((b - 0xF0) * 0x40000 + (b2 - 0x80) * 0x1000 +
                        (b3 - 0x80) * 0x40 + (b4 - 0x80), bs4)
                else none

/-- UTF-8 encoding of a single code point. -/
def encodeChar (c : Nat) : List Nat :=
  if c < 0x80 then [c]
  else if c < 0x800 then [0xC0 + c / 0x40, 0x80 + c % 0x40]
  else if c < 0x10000 then
    [0xE0 + c / 0x1000, 0x80 + (c / 0x40) % 0x40, 0x80 + c % 0x40]
  else
    [0xF0 + c / 0x40000, 0x80 + (c / 0x1000) % 0x40,
     0x80 + (c / 0x40) % 0x40, 0x80 + c % 0x40]

theorem mulAddDiv {m a r : Nat} (hm : 0 < m) (hr : r < m) : (m * a + r) / m = a := by
  rw [Nat.mul_add_div hm, Nat.div_eq_of_lt hr]
  omega

theorem mulAddMod {m a r : Nat} (hr : r < m) : (m * a + r) % m = r := by
  rw [Nat.mul_add_mod]
  exact Nat.mod_eq_of_lt hr

theorem encodeChar_two (b b2 : Nat) (h1 : 0xC2 ≤ b) (h2 : b < 0xE0)
    (h3 : 0x80 ≤ b2) (h4 : b2 < 0xC0) :
    encodeChar ((b - 0xC0) * 0x40 + (b2 - 0x80)) = [b, b2] := by
  have hlo : ¬ ((b - 0xC0) * 0x40 + (b2 - 0x80) < 0x80) := by omega
  have hhi : (b - 0xC0) * 0x40 + (b2 - 0x80) < 0x800 := by omega
  have e : (b - 0xC0) * 0x40 + (b2 - 0x80) = 0x40 * (b - 0xC0) + (b2 - 0x80) := by omega
  have d1 : ((b - 0xC0) * 0x40 + (b2 - 0x80)) / 0x40 = b - 0xC0 := by
    rw [e]; exact mulAddDiv (by omega) (by omega)
  have d2 : ((b - 0xC0) * 0x40 + (b2 - 0x80)) % 0x40 = b2 - 0x80 := by
    rw [e]; exact mulAddMod (by omega)
  simp only [encodeChar, if_neg hlo, if_pos hhi, d1, d2, List.cons.injEq, and_true]
  omega

theorem encodeChar_three (b b2 b3 : Nat) (hb1 : 0xE0 ≤ b) (hb2 : b < 0xF0)
    (h2a : 0x80 ≤ b2) (h2b : b2 < 0xC0) (h3a : 0x80 ≤ b3) (h3b : b3 < 0xC0)
    (hmin : 0x800 ≤ (b - 0xE0) * 0x1000 + (b2 - 0x80) * 0x40 + (b3 - 0x80)) :
    encodeChar ((b - 0xE0) * 0x1000 + (b2 - 0x80) * 0x40 + (b3 - 0x80)) = [b, b2, b3] := by
  have hlo : ¬ ((b - 0xE0) * 0x1000 + (b2 - 0x80) * 0x40 + (b3 - 0x80) < 0x80) := by omega
  have hmid : ¬ ((b - 0xE0) * 0x1000 + (b2 - 0x80) * 0x40 + (b3 - 0x80) < 0x800) := by omega
  have hhi : (b - 0xE0) * 0x1000 + (b2 - 0x80) * 0x40 + (b3 - 0x80) < 0x10000 := by omega
  have d1 : ((b - 0xE0) * 0x1000 + (b2 - 0x80) * 0x40 + (b3 - 0x80)) / 0x1000 = b - 0xE0 := by
    rw [(by omega :
      (b - 0xE0) * 0x1000 + (b2 - 0x80) * 0x40 + (b3 - 0x80) =
        0x1000 * (b - 0xE0) + ((b2 - 0x80) * 0x40 + (b3 - 0x80)))]
    exact mulAddDiv (by omega) (by omega)
  have d2 : (((b - 0xE0) * 0x1000 + (b2 - 0x80) * 0x40 + (b3 - 0x80)) / 0x40) % 0x40
      = b2 - 0x80 := by
    rw [(by omega :
      (b - 0xE0) * 0x1000 + (b2 - 0x80) * 0x40 + (b3 - 0x80) =
        0x40 * (0x40 * (b - 0xE0) + (b2 - 0x80)) + (b3 - 0x80))]
    rw [mulAddDiv (by omega) (by omega)]
    exact mulAddMod (by omega)
  have d3 : ((b - 0xE0) * 0x1000 + (b2 - 0x80) * 0x40 + (b3 - 0x80)) % 0x40 = b3 - 0x80 := by
    rw [(by omega :
      (b - 0xE0) * 0x1000 + (b2 - 0x80) * 0x40 + (b3 - 0x80) =
        0x40 * (0x40 * (b - 0xE0) + (b2 - 0x80)) + (b3 - 0x80))]
    exact mulAddMod (by omega)
  simp only [encodeChar, if_neg hlo, if_neg hmid, if_pos hhi, d1, d2, d3,
    List.cons.injEq, and_true]
  omega

theorem encodeChar_four (b b2 b3 b4 : Nat) (hb1 : 0xF0 ≤ b) (hb2 : b < 0xF5)
    (h2a : 0x80 ≤ b2) (h2b : b2 < 0xC0) (h3a : 0x80 ≤ b3) (h3b : b3 < 0xC0)
    (h4a : 0x80 ≤ b4) (h4b : b4 < 0xC0)
    (hmin : 0x10000 ≤
      (b - 0xF0) * 0x40000 + (b2 - 0x80) * 0x1000 + (b3 - 0x80) * 0x40 + (b4 - 0x80)) :
    encodeChar ((b - 0xF0) * 0x40000 + (b2 - 0x80) * 0x1000 + (b3 - 0x80) * 0x40 + (b4 - 0x80))
      = [b, b2, b3, b4] := by
  have hlo : ¬ ((b - 0xF0) * 0x40000 + (b2 - 0x80) * 0x1000 + (b3 - 0x80) * 0x40 + (b4 - 0x80)
      < 0x80) := by omega
  have hmid : ¬ ((b - 0xF0) * 0x40000 + (b2 - 0x80) * 0x1000 + (b3 - 0x80) * 0x40 + (b4 - 0x80)
      < 0x800) := by omega
  have hhi : ¬ ((b - 0xF0) * 0x40000 + (b2 - 0x80) * 0x1000 + (b3 - 0x80) * 0x40 + (b4 - 0x80)
      < 0x10000) := by omega
  have d1 : ((b - 0xF0) * 0x40000 + (b2 - 0x80) * 0x1000 + (b3 - 0x80) * 0x40 + (b4 - 0x80))
      / 0x40000 = b - 0xF0 := by
    rw [(by omega :
      (b - 0xF0) * 0x40000 + (b2 - 0x80) * 0x1000 + (b3 - 0x80) * 0x40 + (b4 - 0x80) =
        0x40000 * (b - 0xF0) +
          ((b2 - 0x80) * 0x1000 + (b3 - 0x80) * 0x40 + (b4 - 0x80)))]
    exact mulAddDiv (by omega) (by omega)
  have d2 : (((b - 0xF0) * 0x40000 + (b2 - 0x80) * 0x1000 + (b3 - 0x80) * 0x40 + (b4 - 0x80))
      / 0x1000) % 0x40 = b2 - 0x80 := by
    rw [(by omega :
      (b - 0xF0) * 0x40000 + (b2 - 0x80) * 0x1000 + (b3 - 0x80) * 0x40 + (b4 - 0x80) =
        0x1000 * (0x40 * (b - 0xF0) + (b2 - 0x80)) +
          ((b3 - 0x80) * 0x40 + (b4 - 0x80)))]
    rw [mulAddDiv (by omega) (by omega)]
    exact mulAddMod (by omega)
  have d3 : (((b - 0xF0) * 0x40000 + (b2 - 0x80) * 0x1000 + (b3 - 0x80) * 0x40 + (b4 - 0x80))
      / 0x40) % 0x40 = b3 - 0x80 := by
    rw [(by omega :
      (b - 0xF0) * 0x40000 + (b2 - 0x80) * 0x1000 + (b3 - 0x80) * 0x40 + (b4 - 0x80) =
        0x40 * (0x40 * (0x40 * (b - 0xF0) + (b2 - 0x80)) + (b3 - 0x80)) + (b4 - 0x80))]
    rw [mulAddDiv (by omega) (by omega)]
    exact mulAddMod (by omega)
  have d4 : ((b - 0xF0) * 0x40000 + (b2 - 0x80) * 0x1000 + (b3 - 0x80) * 0x40 + (b4 - 0x80))
      % 0x40 = b4 - 0x80 := by
    rw [(by omega :
      (b - 0xF0) * 0x40000 + (b2 - 0x80) * 0x1000 + (b3 - 0x80) * 0x40 + (b4 - 0x80) =
        0x40 * (0x40 * (0x40 * (b - 0xF0) + (b2 - 0x80)) + (b3 - 0x80)) + (b4 - 0x80))]
    exact mulAddMod (by omega)
  simp only [encodeChar, if_neg hlo, if_neg hmid, if_neg hhi, d1, d2, d3, d4,
    List.cons.injEq, and_true]
  omega

/-- Decoding one code point and re-encoding it reproduces the consumed
bytes, and strictly shortens the input. -/
theorem decodeOne_sound : ∀ {bs : List Nat} {c : Nat} {rest : List Nat},
    decodeOne bs = some (c, rest) →
    encodeChar c ++ rest = bs ∧ rest.length < bs.length := by
  intro bs c rest h
  unfold decodeOne at h
  split at h
  · exact absurd h (by simp)
  next b bs1 =>
    split at h
    next hlt =>
      simp only [Option.some.injEq, Prod.mk.injEq] at h
      obtain ⟨rfl, rfl⟩ := h
      refine ⟨?_, by simp only [List.length_cons]; omega⟩
      simp [encodeChar, hlt]
    next hlt =>
      split at h
      · exact absurd h (by simp)
      next b2 bs2 =>
        split at h
        next hc =>
          obtain ⟨hc1, hc2, hc3, hc4⟩ := hc
          simp only [Option.some.injEq, Prod.mk.injEq] at h
          obtain ⟨rfl, rfl⟩ := h
          refine ⟨?_, by simp only [List.length_cons]; omega⟩
          rw [encodeChar_two b b2 hc1 hc2 hc3 hc4]
          simp
        next hc =>
          split at h
          · exact absurd h (by simp)
          next b3 bs3 =>
            split at h
            next hc3 =>
              obtain ⟨hb1, hb2, hcont, hcb3⟩ := hc3
              have h2r : 0x80 ≤ b2 ∧ b2 < 0xC0 := by
                rcases hcont with ⟨_, x, y⟩ | ⟨_, x, y⟩ | ⟨_, _, x, y⟩ <;>
                  exact ⟨by omega, by omega⟩
              have hmin : 0x800 ≤ (b - 0xE0) * 0x1000 + (b2 - 0x80) * 0x40 + (b3 - 0x80) := by
                rcases hcont with ⟨e, x, y⟩ | ⟨e, x, y⟩ | ⟨e1, e2, x, y⟩ <;> omega
              simp only [Option.some.injEq, Prod.mk.injEq] at h
              obtain ⟨rfl, rfl⟩ := h
              refine ⟨?_, by simp only [List.length_cons]; omega⟩
              rw [encodeChar_three b b2 b3 hb1 hb2 h2r.1 h2r.2 hcb3.1 hcb3.2 hmin]
              simp
            next hc3 =>
              split at h
              · exact absurd h (by simp)
              next b4 bs4 =>
                split at h
                next hc4 =>
                  obtain ⟨hb1, hb2, hcont, hcb3, hcb4⟩ := hc4
                  have h2r : 0x80 ≤ b2 ∧ b2 < 0xC0 := by
                    rcases hcont with ⟨_, x, y⟩ | ⟨_, x, y⟩ | ⟨_, _, x, y⟩ <;>
                      exact ⟨by omega, by omega⟩
                  have hmin : 0x10000 ≤ (b - 0xF0) * 0x40000 + (b2 - 0x80) * 0x1000 +
                      (b3 - 0x80) * 0x40 + (b4 - 0x80) := by
                    rcases hcont with ⟨e, x, y⟩ | ⟨e, x, y⟩ | ⟨e1, e2, x, y⟩ <;> omega
                  simp only [Option.some.injEq, Prod.mk.injEq] at h
                  obtain ⟨rfl, rfl⟩ := h
                  refine ⟨?_, by simp only [List.length_cons]; omega⟩
                  rw [encodeChar_four b b2 b3 b4 hb1 hb2 h2r.1 h2r.2 hcb3.1 hcb3.2
                    hcb4.1 hcb4.2 hmin]
                  simp
                next => exact absurd h (by simp)

/-- Fuel-based strict UTF-8 decoder (structural recursion on the fuel so
that the kernel can evaluate it on concrete inputs). -/
def decodeUtf8Aux : Nat → List Nat → Option (List Nat)
  | _, [] => some []
  | 0, _ :: _ => none
  | fuel + 1, b :: bs =>
    match decodeOne (b :: bs) with
    | none => none
    | some (c, rest) => (decodeUtf8Aux fuel rest).map (fun cs => c :: cs)

/-- Strict UTF-8 decoding of a whole byte string; `none` on invalid input
(the embedding of Python `bytes.decode()` raising `UnicodeDecodeError`). -/
def decodeUtf8 (bs : List Nat) : Option (List Nat) := decodeUtf8Aux bs.length bs

/-- UTF-8 encoding of a sequence of code points (the embedding of writing
a Python `str` with `encoding="utf-8"`). -/
def encodeUtf8 (cs : List Nat) : List Nat := cs.foldr (fun c acc => encodeChar c ++ acc) []

theorem decodeUtf8Aux_sound : ∀ (fuel : Nat) (bs : List Nat) (cs : List Nat),
    bs.length ≤ fuel → decodeUtf8Aux fuel bs = some cs → encodeUtf8 cs = bs := by
  intro fuel
  induction fuel with
  | zero =>
    intro bs cs hlen h
    match bs with
    | [] =>
      simp only [decodeUtf8Aux, Option.some.injEq] at h
      subst h
      rfl
    | b :: bs1 => simp at hlen
  | succ fuel ih =>
    intro bs cs hlen h
    match bs with
    | [] =>
      simp only [decodeUtf8Aux, Option.some.injEq] at h
      subst h
      rfl
    | b :: bs1 =>
      simp only [decodeUtf8Aux] at h
      split at h
      · exact absurd h (by simp)
      next c rest heq =>
        simp only [Option.map_eq_some'] at h
        obtain ⟨cs1, hdec, rfl⟩ := h
        obtain ⟨henc, hlt⟩ := decodeOne_sound heq
        have : rest.length ≤ fuel := by
          simp only [List.length_cons] at hlt hlen
          omega
        have hrec := ih rest cs1 this hdec
        calc encodeUtf8 (c :: cs1) = encodeChar c ++ encodeUtf8 cs1 := rfl
          _ = encodeChar c ++ rest := by rw [hrec]
          _ = b :: bs1 := henc

/-- Round trip: a byte string accepted by the strict UTF-8 decoder is
reproduced verbatim by re-encoding the decoded text. -/
theorem decodeUtf8_sound {bs : List Nat} {cs : List Nat}
    (h : decodeUtf8 bs = some cs) : encodeUtf8 cs = bs :=
  decodeUtf8Aux_sound bs.length bs cs (Nat.le_refl _) h

/-- Bytes of a Lean string literal, used to build concrete documents. -/
def strBytes (s : String) : List Nat := encodeUtf8 (s.data.map Char.toNat)

/-!
## Paths and the model filesystem

Paths are component lists; `Path.resolve()` is the identity in the model
(paths are taken as already canonical and symlink-free, which is how the
repository's own tests invoke the code), and `as_posix()` renders with
forward slashes.
-/

abbrev Fpath := List String

/-- Forward-slash rendering of a relative path (Python `Path.as_posix()`). -/
def asPosix (p : Fpath) : String := String.intercalate "/" p

/-- `properLead base p`: `p` lies strictly inside directory `base`,
i.e. `p = base ++ s` for some nonempty `s`. -/
def properLead : Fpath → Fpath → Bool
  | [], [] => false
  | [], _ :: _ => true
  | _ :: _, [] => false
  | a :: as, b :: bs => a == b && properLead as bs

/-- All proper leading sub-paths (ancestor directories) of `p`; these are
the directories `mkdir(parents=True)` ensures exist for a written file. -/
def strictLeads (p : Fpath) : List Fpath := (List.range p.length).map (fun i => p.take i)

/-- `.md` suffix check on the final component (the managed document
pattern matched by `rglob("*.md")`). -/
def hasMdExt (p : Fpath) : Bool :=
  match p.getLast? with
  | some s => s.data.reverse.take 3 == ['d', 'm', '.']
  | none => false

/-- The output tree: files (path, content bytes) and directories. -/
structure Fs where
  files : List (Fpath × List Nat)
  dirs : List Fpath

def Fs.lookup (fs : Fs) (p : Fpath) : Option (List Nat) :=
  (fs.files.find? (fun f => f.1 == p)).map (fun f => f.2)

/-- Writing one artifact (`_write_one` lines 84-85): create the missing
ancestor directories, then write the file, overwriting any previous one. -/
def Fs.applyWrite (fs : Fs) (w : Fpath × List Nat) : Fs :=
  { files := w :: (fs.files.filter (fun f => !(f.1 == w.1))),
    dirs := (strictLeads w.1).foldr List.insert fs.dirs }

/-!
## Cache store

Modelled from the spec: the cache module (`mdxlate/cache.py`, class
`TranslationCache` with `calc_key` / `is_up_to_date` / `mark` / `load` /
`save` and the file name constant `STATE_FILE_NAME`) is not among the
available sources; only its call sites in translator.py and its
specification (§3, §4.2, §6) are.
-/

/-- Modelled from the spec: a fingerprint is a deterministic digest of
(relative path, language, content bytes, instruction text, model id); any
differing component changes the digest (spec §3), so the digest is
injective on tuples and is modelled by the tuple itself. -/
structure CacheKey where
  rel : String
  lang : String
  fileBytes : List Nat
  prompt : String
  model : String
deriving DecidableEq

/-- Modelled from the spec: cache state maps (language, forward-slash
relative path) to a fingerprint (spec §3/§4.2/§6); lookups see the newest
entry for a pair first. -/
abbrev CacheState := List ((String × String) × CacheKey)

def CacheState.lookup (c : CacheState) (lang rel : String) : Option CacheKey :=
  (List.find? (fun e => e.1 == (lang, rel)) c).map (fun e => e.2)

/-- Modelled from the spec: `mark` records/overwrites the in-memory entry
for (language, path) (spec §4.2). -/
def CacheState.mark (c : CacheState) (lang rel : String) (k : CacheKey) : CacheState :=
  ((lang, rel), k) :: c

/-- Modelled from the spec: `isUpToDate` is true iff the stored
fingerprint for (language, path) equals the digest, false when no entry
exists (spec §4.2). -/
def isUpToDate (c : CacheState) (lang rel : String) (k : CacheKey) : Bool :=
  c.lookup lang rel == some k

/-- Modelled from the spec: `load()` yields empty state when the cache
file is absent (spec §4.2); `none` stands for the absent file. -/
def loadCache (disk : Option CacheState) : CacheState := disk.getD []

/-!
## The Translator
-/

/-- Translator configuration and instance state (translator.py lines
31-57).  The AsyncOpenAI client is replaced by an explicit backend
function, and the translation instruction is carried as its final text. -/
structure Translator where
  baseLanguage : String
  languages : List String
  model : String
  translationInstruction : String
  maxConcurrency : Nat
  forceTranslation : Bool
  cacheDir : Option Fpath
  usedOutputPaths : List Fpath

/-- The backend capability behind `translate_text` (lines 59-73): given
document text (as code points) and a target language, fallibly return the
translated text.  The retry/backoff wrapper is excluded by the spec; an
`.error` here is a backend failure with retries already exhausted. -/
abbrev Backend := List Nat → String → Except Unit (List Nat)

/-- Modelled from the spec: `cache.calc_key(rel, lang, file_bytes,
prompt, model)` as called at translator.py lines 95-101. -/
def calcKey (t : Translator) (rel : Fpath) (lang : String) (fileBytes : List Nat) : CacheKey :=
  ⟨asPosix rel, lang, fileBytes, t.translationInstruction, t.model⟩

/-- `output_dir / lang / relative_path` (translator.py lines 77 and 83). -/
def outPath (outputDir : Fpath) (lang : String) (rel : Fpath) : Fpath :=
  outputDir ++ lang :: rel

/-- `Translator._mark_used` (lines 75-78): record the output path of
every configured language for this document in the instance-level set
`used_output_paths`. -/
def markUsed (t : Translator) (outputDir rel : Fpath) : Translator :=
  { t with usedOutputPaths :=
      (t.languages.foldl (fun s lang => List.insert (outPath outputDir lang rel) s)
        t.usedOutputPaths) }

/-- Result of one write task; the backend call made (if any) is recorded
whether or not it succeeded. -/
structure TaskResult where
  calls : List (String × List Nat)
  write : Option (Fpath × List Nat)
  failed : Bool

/-- `Translator._write_one` (lines 80-86): under the semaphore, the base
language passes the text through verbatim with no backend call, any other
language calls the backend; the resulting text is UTF-8 encoded into
`output_dir/lang/rel`.  A backend failure (retries exhausted) aborts the
task before the write. -/
def writeOne (t : Translator) (backend : Backend) (lang : String) (text : List Nat)
    (rel outputDir : Fpath) : TaskResult :=
  if lang == t.baseLanguage then
    { calls := [], write := some (outPath outputDir lang rel, encodeUtf8 text),
      failed := false }
  else
    match backend text lang with
    | .ok translated =>
      { calls := [(lang, text)],
        write := some (outPath outputDir lang rel, encodeUtf8 translated), failed := false }
    | .error _ =>
      { calls := [(lang, text)], write := none, failed := true }

/-- One iteration of the per-language loop of `process_file` (lines
94-105): skip when not forced and the pair is up to date (line 102);
otherwise schedule the language (line 104) and immediately mark the new
fingerprint (line 105). -/
def scheduleStep (t : Translator) (rel : Fpath) (fileBytes : List Nat)
    (acc : List String × CacheState) (lang : String) : List String × CacheState :=
  let key := calcKey t rel lang fileBytes
  if !t.forceTranslation && isUpToDate acc.2 lang (asPosix rel) key then acc
  else (acc.1 ++ [lang], acc.2.mark lang (asPosix rel) key)

/-- The languages scheduled for a document, with the cache state after
the loop's marks. -/
def scheduledLangs (t : Translator) (cache : CacheState) (rel : Fpath)
    (fileBytes : List Nat) : List String × CacheState :=
  t.languages.foldl (scheduleStep t rel fileBytes) ([], cache)

inductive RunError where
  | decodeErr (rel : Fpath)
  | taskErr (rel : Fpath) (lang : String)
deriving DecidableEq

structure FileResult where
  t : Translator
  cache : CacheState
  calls : List (String × List Nat)
  writes : List (Fpath × List Nat)
  err : Option RunError

/-- `Translator.process_file` (lines 88-107).  A document is its
source-root-relative path (`file_path.relative_to(source_root)`, line 89)
plus raw bytes (line 91).  `_mark_used` runs first (line 90); a
`UnicodeDecodeError` from `bytes.decode()` (line 92) fails the document
before any scheduling or marking; otherwise each stale-or-forced language
is scheduled and marked, and the scheduled write tasks run and are
awaited (line 107).  A failed task surfaces as the document's error. -/
def processFile (t : Translator) (backend : Backend) (outputDir : Fpath)
    (cache : CacheState) (doc : Fpath × List Nat) : FileResult :=
  let rel := doc.1
  let t1 := markUsed t outputDir rel
  match decodeUtf8 doc.2 with
  | none =>
    { t := t1, cache := cache, calls := [], writes := [], err := some (.decodeErr rel) }
  | some text =>
    let sched := scheduledLangs t cache rel doc.2
    let results := sched.1.map (fun lang => (lang, writeOne t backend lang text rel outputDir))
    { t := t1
      cache := sched.2
      calls := results.foldr (fun r acc => r.2.calls ++ acc) []
      writes := results.filterMap (fun r => r.2.write)
      err := match results.find? (fun r => r.2.failed) with
             | some r => some (.taskErr rel r.1)
             | none => none }

/-!
## Cleanup pass
-/

/-- A directory is empty when no file and no directory lies strictly
inside it (`iterdir()` yields nothing). -/
def dirEmpty (fs : Fs) (d : Fpath) : Bool :=
  fs.files.all (fun f => !properLead d f.1) && fs.dirs.all (fun e => !properLead d e)

/-- `if d.is_dir() and not any(d.iterdir()): d.rmdir()` (lines 118-119). -/
def pruneStep (fs : Fs) (d : Fpath) : Fs :=
  if dirEmpty fs d then { fs with dirs := fs.dirs.filter (fun e => !(e == d)) } else fs

/-- Insertion into a list kept sorted by non-increasing path length. -/
def insertDeep (d : Fpath) : List Fpath → List Fpath
  | [] => [d]
  | e :: es => if e.length ≤ d.length then d :: e :: es else e :: insertDeep d es

/-- Deepest-first ordering of a list of paths.  `lang_dir.rglob("*")`
yields every directory before its own contents, so the source's
`reversed(list(lang_dir.rglob("*")))` (line 117) visits descendants
before their parents; non-increasing depth is such an order. -/
def deepFirst (l : List Fpath) : List Fpath := l.foldr insertDeep []

/-- One language directory of `clean_up_unused_files` (lines 114-119):
delete every `*.md` file under it whose path was not recorded in
`used_output_paths`, then remove directories that have become empty,
children before parents. -/
def cleanupLang (used : List Fpath) (langDir : Fpath) (fs : Fs) : Fs :=
  let fs1 : Fs :=
    { files := fs.files.filter (fun f => !(properLead langDir f.1 && hasMdExt f.1 && !(decide (f.1 ∈ used)))),
      dirs := fs.dirs }
  (deepFirst (fs1.dirs.filter (fun d => properLead langDir d))).foldl pruneStep fs1

/-- One language of `clean_up_unused_files`: skip when the language
directory does not exist (lines 112-113), else clean it. -/
def cleanupStep (used : List Fpath) (outputDir : Fpath) (acc : Fs) (lang : String) : Fs :=
  if decide ((outputDir ++ [lang]) ∈ acc.dirs) then
    cleanupLang used (outputDir ++ [lang]) acc
  else acc

/-- `Translator.clean_up_unused_files` (lines 109-119): clean every
configured language's output subtree in turn. -/
def cleanUpUnusedFiles (t : Translator) (outputDir : Fpath) (fs : Fs) : Fs :=
  t.languages.foldl (cleanupStep t.usedOutputPaths outputDir) fs

/-- Well-formedness of the model filesystem: every ancestor of a present
directory or file is itself a present directory — as on a real
filesystem, where nothing exists inside a directory that does not exist. -/
def fsClosed (fs : Fs) : Bool :=
  fs.dirs.all (fun e => (strictLeads e).all (fun l => decide (l ∈ fs.dirs))) &&
  fs.files.all (fun f => (strictLeads f.1).all (fun l => decide (l ∈ fs.dirs)))

/-!
## The run
-/

structure RunAcc where
  t : Translator
  cache : CacheState
  calls : List (String × List Nat)
  writes : List (Fpath × List Nat)
  err : Option RunError

/-- Fold step of a run: process one document, accumulating backend calls,
writes, and the first error (asyncio.gather propagates the first
exception while the other tasks still run to completion). -/
def runStep (backend : Backend) (outputDir : Fpath) (acc : RunAcc)
    (doc : Fpath × List Nat) : RunAcc :=
  let r := processFile acc.t backend outputDir acc.cache doc
  { t := r.t, cache := r.cache, calls := acc.calls ++ r.calls,
    writes := acc.writes ++ r.writes, err := acc.err <|> r.err }

structure RunResult where
  t : Translator
  fs : Fs
  disk : Option CacheState
  calls : List (String × List Nat)
  writes : List (Fpath × List Nat)
  err : Option RunError

/-- `Translator.translate_directory` (lines 121-131).  Note that the
source compares `source_dir` and `output_dir` in no way (there is no path
guard); `sourceDir` only selects the default cache root (line 122).  The
cache is loaded, every discovered `*.md` document (`docs` lists each as
(relative path, bytes)) is processed — their tasks serialized, see the
header note — and only when no task failed are the cache saved (line 130)
and the cleanup pass run (line 131).  On a failure both are skipped,
while writes made by completed tasks remain on disk. -/
def runAcc0 (t : Translator) (disk : Option CacheState) : RunAcc :=
  { t := t, cache := loadCache disk, calls := [], writes := [], err := none }

def runFold (backend : Backend) (outputDir : Fpath) (docs : List (Fpath × List Nat))
    (acc : RunAcc) : RunAcc :=
  docs.foldl (runStep backend outputDir) acc

def translateDirectory (t : Translator) (backend : Backend) (sourceDir outputDir : Fpath)
    (docs : List (Fpath × List Nat)) (disk : Option CacheState) (fs0 : Fs) : RunResult :=
  let _cacheRoot := t.cacheDir.getD sourceDir
  let acc := runFold backend outputDir docs (runAcc0 t disk)
  let fs1 := acc.writes.foldl Fs.applyWrite fs0
  match acc.err with
  | some e =>
    { t := acc.t, fs := fs1, disk := disk, calls := acc.calls, writes := acc.writes,
      err := some e }
  | none =>
    { t := acc.t, fs := cleanUpUnusedFiles acc.t outputDir fs1, disk := some acc.cache,
      calls := acc.calls, writes := acc.writes, err := none }

/-- All output artifact paths implied by the current document list and
the configured languages: the contents the spec prescribes for the
Live-Path Set. -/
def impliedPaths (outputDir : Fpath) (langs : List String)
    (docs : List (Fpath × List Nat)) : List Fpath :=
  docs.foldr (fun doc acc => langs.map (fun lang => outPath outputDir lang doc.1) ++ acc) []

/-!
## Concurrency pool (semaphore) model

`__init__` creates `asyncio.Semaphore(max_concurrency)` once per
Translator (line 55) and every `_write_one` body runs entirely inside
`async with self.semaphore` (line 81): acquisition decrements the free
slot count (suspending while it is zero) and leaving the block increments
it again, on success and failure alike.  The pool below is that single
run-wide semaphore together with the phase of each scheduled write task.
-/

inductive TaskPhase where
  | waiting
  | running
  | finished
deriving DecidableEq

structure PoolState where
  avail : Nat
  tasks : List TaskPhase
deriving DecidableEq

/-- Run start: the semaphore holds `max_concurrency` free slots and all
`n` write tasks of the run are waiting. -/
def initPool (t : Translator) (n : Nat) : PoolState :=
  { avail := t.maxConcurrency, tasks := List.replicate n TaskPhase.waiting }

/-- Number of write tasks currently in flight (inside the semaphore). -/
def runningCount (s : PoolState) : Nat :=
  s.tasks.countP (fun p => p == TaskPhase.running)

/-- A scheduler transition: a waiting task acquires a free slot and
enters the `async with` body, or an in-flight task completes and releases
its slot.  Acquisition requires a free slot (`avail = a + 1`): with no
free slot the semaphore suspends the acquiring task. -/
inductive PoolStep : PoolState → PoolState → Prop
  | acquire (a : Nat) (tasks : List TaskPhase) (i : Nat)
      (h : tasks.get? i = some TaskPhase.waiting) :
      PoolStep ⟨a + 1, tasks⟩ ⟨a, tasks.set i TaskPhase.running⟩
  | release (a : Nat) (tasks : List TaskPhase) (i : Nat)
      (h : tasks.get? i = some TaskPhase.running) :
      PoolStep ⟨a, tasks⟩ ⟨a + 1, tasks.set i TaskPhase.finished⟩

inductive PoolReachable (s0 : PoolState) : PoolState → Prop
  | refl : PoolReachable s0 s0
  | tail {s s' : PoolState} : PoolReachable s0 s → PoolStep s s' → PoolReachable s0 s'

/-!
## Scheduling-time trace of process_file

Under the asyncio single-thread semantics, `asyncio.create_task`
(line 104) only queues a coroutine: it cannot start before the creating
coroutine reaches an await, and the loop of lines 94-105 contains none.
Hence every `cache.mark` (line 105) is emitted during the synchronous
scheduling loop, while the scheduled write tasks start, run and complete
only inside the `asyncio.gather` await (line 107), in an arbitrary
completion order given here as `completionOrder`.
-/

inductive SchedEv where
  | mark (lang : String)
  | taskComplete (lang : String)
deriving DecidableEq

def processFileTrace (t : Translator) (cache : CacheState) (rel : Fpath)
    (fileBytes : List Nat) (completionOrder : List String) : List SchedEv :=
  ((scheduledLangs t cache rel fileBytes).1.map SchedEv.mark) ++
    (completionOrder.map SchedEv.taskComplete)

/-!
## Concrete scenario

The repository's own fixture (tests/test_mdxlate.py, `sample_docs`):
documents `a.md` and `sub/b.md`, base language `en`, plus a deterministic
fake backend.
-/

def strText (s : String) : List Nat := s.data.map Char.toNat

def sampleTr : Translator :=
  { baseLanguage := "en", languages := ["en", "de"], model := "test-model",
    translationInstruction := "SYSTEM PROMPT", maxConcurrency := 4,
    forceTranslation := false, cacheDir := none, usedOutputPaths := [] }

def sampleBackend : Backend := fun text lang => .ok (strText ("[" ++ lang ++ "] ") ++ text)

def failBackend : Backend := fun _ _ => .error ()

def sampleDocs : List (Fpath × List Nat) :=
  [(["a.md"], strBytes "# A"), (["sub", "b.md"], strBytes "Sub page")]

def emptyFs : Fs := { files := [], dirs := [] }

/-!
## Basic lemmas about the run
-/

theorem processFile_err_of_decode_none {t : Translator} {backend : Backend}
    {o : Fpath} {c : CacheState} {doc : Fpath × List Nat}
    (h : decodeUtf8 doc.2 = none) :
    (processFile t backend o c doc).err = some (RunError.decodeErr doc.1) := by
  unfold processFile
  rw [h]

theorem runStep_err {backend : Backend} {o : Fpath} {acc : RunAcc} {doc : Fpath × List Nat} :
    (runStep backend o acc doc).err =
      (acc.err <|> (processFile acc.t backend o acc.cache doc).err) := rfl

theorem runFold_err_mono {backend : Backend} {o : Fpath} :
    ∀ {docs : List (Fpath × List Nat)} {acc : RunAcc},
      acc.err ≠ none → (runFold backend o docs acc).err ≠ none := by
  intro docs
  induction docs with
  | nil => intro acc h; exact h
  | cons d rest ih =>
    intro acc h
    have hstep : (runStep backend o acc d).err ≠ none := by
      rw [runStep_err]
      cases he : acc.err with
      | none => exact absurd he h
      | some e => simp [Option.orElse]
    exact ih hstep

theorem runFold_err_of_bad_doc {backend : Backend} {o : Fpath} :
    ∀ {docs : List (Fpath × List Nat)} {acc : RunAcc} {d : Fpath × List Nat},
      d ∈ docs → decodeUtf8 d.2 = none → (runFold backend o docs acc).err ≠ none := by
  intro docs
  induction docs with
  | nil => intro acc d hd; exact absurd hd (by simp)
  | cons d0 rest ih =>
    intro acc d hd hbad
    rcases List.mem_cons.mp hd with rfl | hmem
    · show (runFold backend o rest (runStep backend o acc d)).err ≠ none
      apply runFold_err_mono
      rw [runStep_err, processFile_err_of_decode_none hbad]
      cases acc.err <;> simp [Option.orElse]
    · exact ih hmem hbad

theorem translateDirectory_err {t : Translator} {backend : Backend} {s o : Fpath}
    {docs : List (Fpath × List Nat)} {disk : Option CacheState} {fs0 : Fs} :
    (translateDirectory t backend s o docs disk fs0).err =
      (runFold backend o docs (runAcc0 t disk)).err := by
  unfold translateDirectory
  cases h : (runFold backend o docs (runAcc0 t disk)).err <;> simp [h]

theorem translateDirectory_calls {t : Translator} {backend : Backend} {s o : Fpath}
    {docs : List (Fpath × List Nat)} {disk : Option CacheState} {fs0 : Fs} :
    (translateDirectory t backend s o docs disk fs0).calls =
      (runFold backend o docs (runAcc0 t disk)).calls := by
  unfold translateDirectory
  cases h : (runFold backend o docs (runAcc0 t disk)).err <;> simp [h]

theorem translateDirectory_writes {t : Translator} {backend : Backend} {s o : Fpath}
    {docs : List (Fpath × List Nat)} {disk : Option CacheState} {fs0 : Fs} :
    (translateDirectory t backend s o docs disk fs0).writes =
      (runFold backend o docs (runAcc0 t disk)).writes := by
  unfold translateDirectory
  cases h : (runFold backend o docs (runAcc0 t disk)).err <;> simp [h]

theorem translateDirectory_t {t : Translator} {backend : Backend} {s o : Fpath}
    {docs : List (Fpath × List Nat)} {disk : Option CacheState} {fs0 : Fs} :
    (translateDirectory t backend s o docs disk fs0).t =
      (runFold backend o docs (runAcc0 t disk)).t := by
  unfold translateDirectory
  cases h : (runFold backend o docs (runAcc0 t disk)).err <;> simp [h]

theorem translateDirectory_disk_of_err {t : Translator} {backend : Backend} {s o : Fpath}
    {docs : List (Fpath × List Nat)} {disk : Option CacheState} {fs0 : Fs}
    (h : (translateDirectory t backend s o docs disk fs0).err ≠ none) :
    (translateDirectory t backend s o docs disk fs0).disk = disk := by
  rw [translateDirectory_err] at h
  unfold translateDirectory
  cases he : (runFold backend o docs (runAcc0 t disk)).err with
  | none => exact absurd he h
  | some e => simp [he]

theorem translateDirectory_disk_of_ok {t : Translator} {backend : Backend} {s o : Fpath}
    {docs : List (Fpath × List Nat)} {disk : Option CacheState} {fs0 : Fs}
    (h : (translateDirectory t backend s o docs disk fs0).err = none) :
    (translateDirectory t backend s o docs disk fs0).disk =
      some (runFold backend o docs (runAcc0 t disk)).cache := by
  rw [translateDirectory_err] at h
  unfold translateDirectory
  simp [h]

/-!
## Claim C1 — path guard
-/

/-- C1: the claim states that calling the run entry point
`translate_directory(sourceRoot, outputRoot)` with identical roots, or
with either root a descendant of the other, raises a configuration error
before any document I/O.  The code has no such guard: `translate_directory`
(translator.py lines 121-131) never compares the two roots, and the
repository's own tests (test_translate_directory_rejects_same_directory,
…_rejects_output_inside_source, …_rejects_source_inside_output) expect a
ValueError that the code cannot raise — a code bug.  This theorem
evaluates the embedded entry point at the three forbidden configurations
(the same shapes the tests use) and shows each run completes with no
error and performs document writes. -/
theorem c1_translate_directory_has_no_path_guard :
    ((translateDirectory sampleTr sampleBackend ["docs"] ["docs"] sampleDocs none
        emptyFs).err = none ∧
      (translateDirectory sampleTr sampleBackend ["docs"] ["docs"] sampleDocs none
        emptyFs).writes.length = 4) ∧
    ((translateDirectory sampleTr sampleBackend ["out", "en"] ["out"]
        [(["test.md"], strBytes "# Test")] none emptyFs).err = none ∧
      (translateDirectory sampleTr sampleBackend ["out", "en"] ["out"]
        [(["test.md"], strBytes "# Test")] none emptyFs).writes.length = 2) ∧
    ((translateDirectory sampleTr sampleBackend ["docs"] ["docs", "translations"]
        [(["test.md"], strBytes "# Test")] none emptyFs).err = none ∧
      (translateDirectory sampleTr sampleBackend ["docs"] ["docs", "translations"]
        [(["test.md"], strBytes "# Test")] none emptyFs).writes.length = 2) :=
  ⟨⟨rfl, rfl⟩, ⟨rfl, rfl⟩, ⟨rfl, rfl⟩⟩

/-!
## Claim C2 — failed write tasks and the persisted cache
-/

/-- C2 (counterexample): the claim states that a pair whose write task
fails has its fingerprint persisted, so the next run sees it up to date
and skips it.  Concretely, with a backend that always fails, the run
aborts (`asyncio.gather` raises, so `cache.save()` on line 130 never
executes): nothing is persisted (`disk = none`, the cache file is never
even created) and a next run over the same inputs schedules the failed
pair again and calls the backend for it. -/
theorem c2_failed_pair_persisted_cex :
    (translateDirectory sampleTr failBackend ["docs"] ["out"] sampleDocs none emptyFs).err
        ≠ none ∧
    (translateDirectory sampleTr failBackend ["docs"] ["out"] sampleDocs none emptyFs).disk
        = none ∧
    (translateDirectory sampleTr sampleBackend ["docs"] ["out"] sampleDocs
      (translateDirectory sampleTr failBackend ["docs"] ["out"] sampleDocs none emptyFs).disk
      (translateDirectory sampleTr failBackend ["docs"] ["out"] sampleDocs none
        emptyFs).fs).calls ≠ [] :=
  ⟨by decide, rfl, by decide⟩

/-- C2 (amended): when any scheduled write task of a run fails, the run
aborts before `cache.save()` (line 130 is unreachable once the gather at
line 129 raises), so the on-disk cache is left exactly as it was: the
pair's fingerprint — although marked in memory at scheduling time — is
not persisted, and the pair is not skipped on the next run. -/
theorem c2_failed_run_leaves_disk_cache_unchanged (t : Translator) (backend : Backend)
    (s o : Fpath) (docs : List (Fpath × List Nat)) (disk : Option CacheState) (fs0 : Fs)
    (h : (translateDirectory t backend s o docs disk fs0).err ≠ none) :
    (translateDirectory t backend s o docs disk fs0).disk = disk :=
  translateDirectory_disk_of_err h

theorem c2_failed_run_leaves_disk_cache_unchanged_witness :
    (translateDirectory sampleTr failBackend ["docs"] ["out"] sampleDocs none emptyFs).err
        ≠ none ∧
    (translateDirectory sampleTr failBackend ["docs"] ["out"] sampleDocs none emptyFs).disk
        = none :=
  ⟨by decide,
    c2_failed_run_leaves_disk_cache_unchanged sampleTr failBackend ["docs"] ["out"]
      sampleDocs none emptyFs (by decide)⟩

/-!
## Claim C10 — invalid UTF-8 aborts the run
-/

/-- C10: a document whose bytes are not valid (strict) UTF-8 makes
`bytes.decode()` raise inside `process_file` (line 92), and the error
propagates through the gathers and aborts the run: whenever such a
document is among the discovered ones, the run finishes with an error. -/
theorem c10_invalid_utf8_aborts_run (t : Translator) (backend : Backend)
    (s o : Fpath) (docs : List (Fpath × List Nat)) (disk : Option CacheState) (fs0 : Fs)
    (d : Fpath × List Nat) (hd : d ∈ docs) (hbad : decodeUtf8 d.2 = none) :
    (translateDirectory t backend s o docs disk fs0).err ≠ none := by
  rw [translateDirectory_err]
  exact runFold_err_of_bad_doc hd hbad

theorem c10_invalid_utf8_aborts_run_witness :
    (["bad.md"], [0xFF]) ∈ [((["bad.md"], [0xFF]) : Fpath × List Nat)] ∧
    decodeUtf8 [0xFF] = none ∧
    (translateDirectory sampleTr sampleBackend ["docs"] ["out"] [(["bad.md"], [0xFF])]
      none emptyFs).err ≠ none :=
  ⟨by decide, rfl,
    c10_invalid_utf8_aborts_run sampleTr sampleBackend ["docs"] ["out"]
      [(["bad.md"], [0xFF])] none emptyFs (["bad.md"], [0xFF]) (by decide) rfl⟩

/-!
## Calls and writes of a run
-/

theorem mem_collect {α β : Type} (g : α → List β) :
    ∀ (l : List α) (c : β),
      c ∈ l.foldr (fun r acc => g r ++ acc) [] ↔ ∃ r ∈ l, c ∈ g r := by
  intro l
  induction l with
  | nil => intro c; simp
  | cons a rest ih => intro c; simp [ih, List.mem_append]

@[simp] theorem markUsed_baseLanguage (t : Translator) (o rel : Fpath) :
    (markUsed t o rel).baseLanguage = t.baseLanguage := rfl

@[simp] theorem markUsed_languages (t : Translator) (o rel : Fpath) :
    (markUsed t o rel).languages = t.languages := rfl

@[simp] theorem markUsed_model (t : Translator) (o rel : Fpath) :
    (markUsed t o rel).model = t.model := rfl

@[simp] theorem markUsed_translationInstruction (t : Translator) (o rel : Fpath) :
    (markUsed t o rel).translationInstruction = t.translationInstruction := rfl

@[simp] theorem markUsed_forceTranslation (t : Translator) (o rel : Fpath) :
    (markUsed t o rel).forceTranslation = t.forceTranslation := rfl

theorem processFile_t_eq {t : Translator} {b : Backend} {o : Fpath} {c : CacheState}
    {doc : Fpath × List Nat} : (processFile t b o c doc).t = markUsed t o doc.1 := by
  unfold processFile
  cases h : decodeUtf8 doc.2 <;> rfl

theorem runStep_t_eq {b : Backend} {o : Fpath} {acc : RunAcc} {d : Fpath × List Nat} :
    (runStep b o acc d).t = markUsed acc.t o d.1 :=
  processFile_t_eq

/-- A processed document changes only the instance-level used-path set of
the Translator: all configuration fields survive each step of the run. -/
theorem runFold_t_config (b : Backend) (o : Fpath) :
    ∀ (docs : List (Fpath × List Nat)) (acc : RunAcc),
      ((runFold b o docs acc).t).baseLanguage = acc.t.baseLanguage ∧
      ((runFold b o docs acc).t).languages = acc.t.languages ∧
      ((runFold b o docs acc).t).model = acc.t.model ∧
      ((runFold b o docs acc).t).translationInstruction = acc.t.translationInstruction ∧
      ((runFold b o docs acc).t).forceTranslation = acc.t.forceTranslation := by
  intro docs
  induction docs with
  | nil => intro acc; exact ⟨rfl, rfl, rfl, rfl, rfl⟩
  | cons d rest ih =>
    intro acc
    have h := ih (runStep b o acc d)
    have e : (runFold b o (d :: rest) acc) = runFold b o rest (runStep b o acc d) := rfl
    rw [e]
    rw [runStep_t_eq] at h
    simpa using h

/-!
### writeOne and scheduling characterizations
-/

theorem writeOne_calls_mem {t : Translator} {b : Backend} {lang : String}
    {text : List Nat} {rel o : Fpath} {pr : String × List Nat}
    (h : pr ∈ (writeOne t b lang text rel o).calls) :
    pr = (lang, text) ∧ lang ≠ t.baseLanguage := by
  unfold writeOne at h
  by_cases hb : lang = t.baseLanguage
  · simp [hb] at h
  · simp only [beq_iff_eq, if_neg hb] at h
    cases hback : b text lang <;> rw [hback] at h <;> simp at h <;> exact ⟨by simp [h], hb⟩

theorem writeOne_calls_of_not_base {t : Translator} {b : Backend} {lang : String}
    {text : List Nat} {rel o : Fpath} (h : lang ≠ t.baseLanguage) :
    (writeOne t b lang text rel o).calls = [(lang, text)] := by
  unfold writeOne
  simp only [beq_iff_eq, if_neg h]
  cases hback : b text lang <;> rfl

theorem writeOne_write_shape {t : Translator} {b : Backend} {lang : String}
    {text : List Nat} {rel o : Fpath} {w : Fpath × List Nat}
    (h : (writeOne t b lang text rel o).write = some w) :
    w.1 = outPath o lang rel ∧ (lang = t.baseLanguage → w.2 = encodeUtf8 text) := by
  unfold writeOne at h
  by_cases hb : lang = t.baseLanguage
  · simp only [beq_iff_eq, if_pos hb] at h
    simp only [Option.some.injEq] at h
    subst h
    exact ⟨rfl, fun _ => rfl⟩
  · simp only [beq_iff_eq, if_neg hb] at h
    cases hback : b text lang <;> rw [hback] at h <;> simp at h
    obtain ⟨rfl, rfl⟩ := h
    exact ⟨rfl, fun hc => absurd hc hb⟩

theorem schedFold_fst_mem {t : Translator} {rel : Fpath} {bytes : List Nat} :
    ∀ (ls : List String) (acc : List String × CacheState) (x : String),
      x ∈ (ls.foldl (scheduleStep t rel bytes) acc).1 → x ∈ acc.1 ∨ x ∈ ls := by
  intro ls
  induction ls with
  | nil => intro acc x h; exact Or.inl h
  | cons a rest ih =>
    intro acc x h
    have h1 := ih (scheduleStep t rel bytes acc a) x h
    rcases h1 with h1 | h1
    · unfold scheduleStep at h1
      by_cases hc : (!t.forceTranslation &&
          isUpToDate acc.2 a (asPosix rel) (calcKey t rel a bytes)) = true
      · rw [if_pos hc] at h1
        exact Or.inl h1
      · rw [if_neg hc] at h1
        simp only [List.mem_append, List.mem_singleton] at h1
        rcases h1 with h1 | rfl
        · exact Or.inl h1
        · exact Or.inr (List.mem_cons_self _ _)
    · exact Or.inr (List.mem_cons_of_mem _ h1)

theorem scheduledLangs_fst_subset {t : Translator} {cache : CacheState} {rel : Fpath}
    {bytes : List Nat} {x : String} (h : x ∈ (scheduledLangs t cache rel bytes).1) :
    x ∈ t.languages := by
  rcases schedFold_fst_mem t.languages ([], cache) x h with h1 | h1
  · exact absurd h1 (by simp)
  · exact h1

theorem schedFold_fst_force {t : Translator} {rel : Fpath} {bytes : List Nat}
    (hforce : t.forceTranslation = true) :
    ∀ (ls : List String) (acc : List String × CacheState),
      (ls.foldl (scheduleStep t rel bytes) acc).1 = acc.1 ++ ls := by
  intro ls
  induction ls with
  | nil => intro acc; simp
  | cons a rest ih =>
    intro acc
    have e : scheduleStep t rel bytes acc a =
        (acc.1 ++ [a], acc.2.mark a (asPosix rel) (calcKey t rel a bytes)) := by
      unfold scheduleStep
      rw [if_neg]
      simp [hforce]
    show (rest.foldl (scheduleStep t rel bytes) (scheduleStep t rel bytes acc a)).1 = _
    rw [e, ih]
    simp

theorem scheduledLangs_fst_force {t : Translator} {cache : CacheState} {rel : Fpath}
    {bytes : List Nat} (hforce : t.forceTranslation = true) :
    (scheduledLangs t cache rel bytes).1 = t.languages := by
  unfold scheduledLangs
  rw [schedFold_fst_force hforce]
  simp

/-!
### processFile characterizations
-/

theorem processFile_calls_mem {t : Translator} {b : Backend} {o : Fpath} {c : CacheState}
    {doc : Fpath × List Nat} {pr : String × List Nat}
    (h : pr ∈ (processFile t b o c doc).calls) :
    pr.1 ∈ t.languages ∧ pr.1 ≠ t.baseLanguage ∧
      ∃ text, decodeUtf8 doc.2 = some text ∧ pr.2 = text := by
  unfold processFile at h
  cases hdec : decodeUtf8 doc.2 with
  | none => rw [hdec] at h; simp at h
  | some text =>
    rw [hdec] at h
    simp only at h
    rw [mem_collect] at h
    obtain ⟨r, hr, hpr⟩ := h
    simp only [List.mem_map] at hr
    obtain ⟨lang, hlang, rfl⟩ := hr
    obtain ⟨rfl, hnb⟩ := writeOne_calls_mem hpr
    exact ⟨scheduledLangs_fst_subset hlang, hnb, text, rfl, rfl⟩

theorem processFile_calls_force {t : Translator} {b : Backend} {o : Fpath} {c : CacheState}
    {doc : Fpath × List Nat} {text : List Nat} {lang : String}
    (hforce : t.forceTranslation = true) (hdec : decodeUtf8 doc.2 = some text)
    (hl : lang ∈ t.languages) (hnb : lang ≠ t.baseLanguage) :
    (lang, text) ∈ (processFile t b o c doc).calls := by
  unfold processFile
  rw [hdec]
  simp only
  rw [mem_collect]
  refine ⟨(lang, writeOne t b lang text doc.1 o), ?_, ?_⟩
  · simp only [List.mem_map]
    exact ⟨lang, by rw [scheduledLangs_fst_force hforce]; exact hl, rfl⟩
  · rw [writeOne_calls_of_not_base hnb]
    simp

theorem processFile_writes_shape {t : Translator} {b : Backend} {o : Fpath}
    {c : CacheState} {doc : Fpath × List Nat} {w : Fpath × List Nat}
    (h : w ∈ (processFile t b o c doc).writes) :
    ∃ lang ∈ t.languages, ∃ text, decodeUtf8 doc.2 = some text ∧
      w.1 = outPath o lang doc.1 ∧ (lang = t.baseLanguage → w.2 = encodeUtf8 text) := by
  unfold processFile at h
  cases hdec : decodeUtf8 doc.2 with
  | none => rw [hdec] at h; simp at h
  | some text =>
    rw [hdec] at h
    simp only [List.mem_filterMap, List.mem_map] at h
    obtain ⟨r, ⟨lang, hlang, rfl⟩, hw⟩ := h
    obtain ⟨h1, h2⟩ := writeOne_write_shape hw
    exact ⟨lang, scheduledLangs_fst_subset hlang, text, rfl, h1, h2⟩

theorem outPath_inj {o : Fpath} {l l' : String} {r r' : Fpath}
    (h : outPath o l r = outPath o l' r') : l = l' ∧ r = r' := by
  unfold outPath at h
  have h2 := List.append_cancel_left h
  simp only [List.cons.injEq] at h2
  exact h2

theorem runFold_calls_mono {b : Backend} {o : Fpath} :
    ∀ {docs : List (Fpath × List Nat)} {acc : RunAcc} {pr : String × List Nat},
      pr ∈ acc.calls → pr ∈ (runFold b o docs acc).calls := by
  intro docs
  induction docs with
  | nil => intro acc pr h; exact h
  | cons d rest ih =>
    intro acc pr h
    show pr ∈ (runFold b o rest (runStep b o acc d)).calls
    exact ih (List.mem_append_left _ h)

theorem runFold_calls_mem {b : Backend} {o : Fpath} :
    ∀ {docs : List (Fpath × List Nat)} {acc : RunAcc} {pr : String × List Nat},
      pr ∈ (runFold b o docs acc).calls →
      pr ∈ acc.calls ∨
        (pr.1 ∈ acc.t.languages ∧ pr.1 ≠ acc.t.baseLanguage ∧
          ∃ d ∈ docs, ∃ text, decodeUtf8 d.2 = some text ∧ pr.2 = text) := by
  intro docs
  induction docs with
  | nil => intro acc pr h; exact Or.inl h
  | cons d rest ih =>
    intro acc pr h
    have hcfg := runFold_t_config b o rest (runStep b o acc d)
    rcases ih h with h1 | ⟨hl, hnb, d', hd', text, hdec, hpr⟩
    · simp only [runStep, List.mem_append] at h1
      rcases h1 with h1 | h1
      · exact Or.inl h1
      · obtain ⟨hl, hnb, text, hdec, hpr⟩ := processFile_calls_mem h1
        exact Or.inr ⟨hl, hnb, d, List.mem_cons_self _ _, text, hdec, hpr⟩
    · rw [runStep_t_eq] at hl hnb
      simp only [markUsed_languages, markUsed_baseLanguage] at hl hnb
      exact Or.inr ⟨hl, hnb, d', List.mem_cons_of_mem _ hd', text, hdec, hpr⟩

theorem runFold_calls_force {b : Backend} {o : Fpath} :
    ∀ {docs : List (Fpath × List Nat)} {acc : RunAcc} {d : Fpath × List Nat}
      {text : List Nat} {lang : String},
      acc.t.forceTranslation = true → d ∈ docs → decodeUtf8 d.2 = some text →
      lang ∈ acc.t.languages → lang ≠ acc.t.baseLanguage →
      (lang, text) ∈ (runFold b o docs acc).calls := by
  intro docs
  induction docs with
  | nil => intro acc d text lang _ hd; exact absurd hd (by simp)
  | cons d0 rest ih =>
    intro acc d text lang hforce hd hdec hl hnb
    rcases List.mem_cons.mp hd with rfl | hmem
    · show (lang, text) ∈ (runFold b o rest (runStep b o acc d)).calls
      apply runFold_calls_mono
      simp only [runStep, List.mem_append]
      exact Or.inr (processFile_calls_force hforce hdec hl hnb)
    · show (lang, text) ∈ (runFold b o rest (runStep b o acc d0)).calls
      apply ih _ hmem hdec
      · rw [runStep_t_eq]; simpa using hl
      · rw [runStep_t_eq]; simpa using hnb
      · rw [runStep_t_eq]; simpa using hforce

theorem runFold_writes_shape {b : Backend} {o : Fpath} :
    ∀ {docs : List (Fpath × List Nat)} {acc : RunAcc} {w : Fpath × List Nat},
      w ∈ (runFold b o docs acc).writes →
      w ∈ acc.writes ∨
        ∃ d ∈ docs, ∃ lang ∈ acc.t.languages, ∃ text, decodeUtf8 d.2 = some text ∧
          w.1 = outPath o lang d.1 ∧ (lang = acc.t.baseLanguage → w.2 = encodeUtf8 text) := by
  intro docs
  induction docs with
  | nil => intro acc w h; exact Or.inl h
  | cons d rest ih =>
    intro acc w h
    rcases ih h with h1 | ⟨d', hd', lang, hl, text, hdec, hw1, hw2⟩
    · simp only [runStep, List.mem_append] at h1
      rcases h1 with h1 | h1
      · exact Or.inl h1
      · obtain ⟨lang, hl, text, hdec, hw1, hw2⟩ := processFile_writes_shape h1
        exact Or.inr ⟨d, List.mem_cons_self _ _, lang, hl, text, hdec, hw1, hw2⟩
    · rw [runStep_t_eq] at hl hw2
      simp only [markUsed_languages, markUsed_baseLanguage] at hl hw2
      exact Or.inr ⟨d', List.mem_cons_of_mem _ hd', lang, hl, text, hdec, hw1, hw2⟩

/-!
## Claim C4 — base-language pass-through
-/

/-- C4: for every document processed in a run, the artifact written for
the base language is byte-identical to the source document's bytes
(`_write_one` line 82 passes the decoded text through and line 85
re-encodes it as UTF-8, which reproduces the original bytes), and the
backend is never invoked for the base language: no recorded backend call
carries the base language.  Documents are required to have pairwise
distinct relative paths, as produced by the `rglob` walk. -/
theorem c4_base_language_pass_through (t : Translator) (backend : Backend)
    (s o : Fpath) (docs : List (Fpath × List Nat)) (disk : Option CacheState) (fs0 : Fs)
    (hnodup : (docs.map (fun d => asPosix d.1)).Nodup) :
    (∀ pr ∈ (translateDirectory t backend s o docs disk fs0).calls,
      pr.1 ≠ t.baseLanguage) ∧
    (∀ d ∈ docs, ∀ bts : List Nat,
      (outPath o t.baseLanguage d.1, bts) ∈ (translateDirectory t backend s o docs disk
        fs0).writes → bts = d.2) := by
  constructor
  · intro pr hpr
    rw [translateDirectory_calls] at hpr
    rcases runFold_calls_mem hpr with h | ⟨_, hnb, _⟩
    · exact absurd h (by simp [runAcc0])
    · exact hnb
  · intro d hd bts hw
    rw [translateDirectory_writes] at hw
    rcases runFold_writes_shape hw with h | ⟨d', hd', lang, _, text, hdec, hw1, hw2⟩
    · exact absurd h (by simp [runAcc0])
    · simp only [runAcc0] at hw1 hw2
      obtain ⟨hlang, hrel⟩ := outPath_inj hw1.symm
      have hdd : d = d' := by
        apply List.inj_on_of_nodup_map hnodup hd hd'
        rw [hrel]
      subst hdd
      rw [hw2 hlang]
      exact decodeUtf8_sound hdec

theorem c4_base_language_pass_through_witness :
    ((sampleDocs.map (fun d => asPosix d.1)).Nodup ∧
      (["a.md"], strBytes "# A") ∈ sampleDocs) ∧
    (outPath ["out"] sampleTr.baseLanguage ["a.md"], strBytes "# A") ∈
      (translateDirectory sampleTr sampleBackend ["docs"] ["out"] sampleDocs none
        emptyFs).writes ∧
    (∀ bts : List Nat,
      (outPath ["out"] sampleTr.baseLanguage ["a.md"], bts) ∈
        (translateDirectory sampleTr sampleBackend ["docs"] ["out"] sampleDocs none
          emptyFs).writes → bts = strBytes "# A") :=
  ⟨⟨by decide, by decide⟩, by decide,
    fun bts hw =>
      (c4_base_language_pass_through sampleTr sampleBackend ["docs"] ["out"] sampleDocs
        none emptyFs (by decide)).2 (["a.md"], strBytes "# A") (by decide) bts hw⟩

/-!
## Claim C6 — force flag bypasses the cache
-/

/-- C6: with the force flag set, the up-to-date check on line 102 is
short-circuited, every (document, language) pair is scheduled regardless
of cache state, and the backend is invoked for every non-base-language
pair of every decodable document. -/
theorem c6_force_invokes_backend_for_every_pair (t : Translator) (backend : Backend)
    (s o : Fpath) (docs : List (Fpath × List Nat)) (disk : Option CacheState) (fs0 : Fs)
    (hforce : t.forceTranslation = true)
    (d : Fpath × List Nat) (hd : d ∈ docs) (text : List Nat)
    (hdec : decodeUtf8 d.2 = some text)
    (lang : String) (hl : lang ∈ t.languages) (hnb : lang ≠ t.baseLanguage) :
    (lang, text) ∈ (translateDirectory t backend s o docs disk fs0).calls := by
  rw [translateDirectory_calls]
  exact runFold_calls_force hforce hd hdec hl hnb

theorem c6_force_invokes_backend_for_every_pair_witness :
    ({ sampleTr with forceTranslation := true }.forceTranslation = true ∧
      (["a.md"], strBytes "# A") ∈ sampleDocs ∧
      decodeUtf8 (strBytes "# A") = some (strText "# A") ∧
      "de" ∈ sampleTr.languages ∧ "de" ≠ sampleTr.baseLanguage) ∧
    ("de", strText "# A") ∈
      (translateDirectory { sampleTr with forceTranslation := true } sampleBackend
        ["docs"] ["out"] sampleDocs
        (some [(("de", "a.md"),
          calcKey { sampleTr with forceTranslation := true } ["a.md"] "de"
            (strBytes "# A"))]) emptyFs).calls :=
  ⟨⟨rfl, by decide, rfl, by decide, by decide⟩,
    c6_force_invokes_backend_for_every_pair { sampleTr with forceTranslation := true }
      sampleBackend ["docs"] ["out"] sampleDocs
      (some [(("de", "a.md"),
        calcKey { sampleTr with forceTranslation := true } ["a.md"] "de"
          (strBytes "# A"))]) emptyFs rfl (["a.md"], strBytes "# A") (by decide)
      (strText "# A") rfl "de" (by decide) (by decide)⟩

/-!
## Claim C3 — marking happens before task completion
-/

/-- C3: for every (document, language) pair that is not skipped, the
`cache.mark` executed at scheduling time (line 105) happens strictly
before any scheduled write task of the document completes: in every
trace of `process_file` — whatever completion order the event loop
produces — every mark event precedes every task-completion event,
because `create_task` cannot start a coroutine before the scheduling
loop reaches its first await (the gather at line 107). -/
theorem c3_mark_precedes_task_completion (t : Translator) (cache : CacheState)
    (rel : Fpath) (fileBytes : List Nat) (completionOrder : List String)
    (i j : Nat) (l1 l2 : String)
    (hi : (processFileTrace t cache rel fileBytes completionOrder).get? i
      = some (SchedEv.mark l1))
    (hj : (processFileTrace t cache rel fileBytes completionOrder).get? j
      = some (SchedEv.taskComplete l2)) :
    i < j := by
  unfold processFileTrace at hi hj
  have hilen : i < ((scheduledLangs t cache rel fileBytes).1.map SchedEv.mark).length := by
    by_contra hc
    push_neg at hc
    rw [List.get?_append_right hc, List.get?_map] at hi
    cases hcomp : completionOrder.get?
        (i - ((scheduledLangs t cache rel fileBytes).1.map SchedEv.mark).length) with
    | none => rw [hcomp] at hi; exact absurd hi (by simp)
    | some x => rw [hcomp] at hi; simp at hi
  have hjlen : ((scheduledLangs t cache rel fileBytes).1.map SchedEv.mark).length ≤ j := by
    by_contra hc
    push_neg at hc
    rw [List.get?_append hc, List.get?_map] at hj
    cases hsched : (scheduledLangs t cache rel fileBytes).1.get? j with
    | none => rw [hsched] at hj; exact absurd hj (by simp)
    | some x => rw [hsched] at hj; simp at hj
  omega

theorem c3_mark_precedes_task_completion_witness :
    ((processFileTrace sampleTr [] ["a.md"] (strBytes "# A") ["de", "en"]).get? 0
        = some (SchedEv.mark "en") ∧
      (processFileTrace sampleTr [] ["a.md"] (strBytes "# A") ["de", "en"]).get? 2
        = some (SchedEv.taskComplete "de")) ∧
    (0 : Nat) < 2 :=
  ⟨⟨rfl, rfl⟩,
    c3_mark_precedes_task_completion sampleTr [] ["a.md"] (strBytes "# A") ["de", "en"]
      0 2 "en" "de" rfl rfl⟩

/-!
## Claim C9 — the shared pool bounds in-flight write tasks
-/

theorem countP_set {α : Type} (p : α → Bool) :
    ∀ (l : List α) (i : Nat) (a b : α), l.get? i = some a →
      (l.set i b).countP p + (if p a then 1 else 0)
        = l.countP p + (if p b then 1 else 0) := by
  intro l
  induction l with
  | nil => intro i a b h; simp at h
  | cons x xs ih =>
    intro i a b h
    cases i with
    | zero =>
      have hax : x = a := by simpa using h
      rw [← hax, List.set_cons_zero]
      cases hpx : p x <;> cases hpb : p b <;>
        simp [List.countP_cons, hpx, hpb] <;> omega
    | succ n =>
      have h2 := ih n a b (by simpa using h)
      rw [List.set_cons_succ]
      cases hpx : p x <;> simp [List.countP_cons, hpx] <;> omega

theorem countP_replicate_false {α : Type} (p : α → Bool) (x : α) (h : p x = false) :
    ∀ n : Nat, (List.replicate n x).countP p = 0 := by
  intro n
  induction n with
  | zero => rfl
  | succ m ih => simp [List.replicate, List.countP_cons, h, ih]

/-- Semaphore invariant: the number of in-flight tasks plus the number
of free slots is constant, equal to the configured capacity. -/
theorem poolInvariant {t : Translator} {n : Nat} {s : PoolState}
    (h : PoolReachable (initPool t n) s) :
    runningCount s + s.avail = t.maxConcurrency := by
  induction h with
  | refl =>
    show (List.replicate n TaskPhase.waiting).countP (fun q => q == TaskPhase.running)
      + t.maxConcurrency = t.maxConcurrency
    rw [countP_replicate_false _ _ (by decide)]
    omega
  | tail hr hs ih =>
    cases hs with
    | acquire a tasks i hwait =>
      have hc := countP_set (fun q => q == TaskPhase.running) tasks i TaskPhase.waiting
        TaskPhase.running hwait
      simp at hc
      have ih2 : tasks.countP (fun q => q == TaskPhase.running) + (a + 1)
          = t.maxConcurrency := ih
      show (tasks.set i TaskPhase.running).countP (fun q => q == TaskPhase.running) + a
        = t.maxConcurrency
      omega
    | release a tasks i hrun =>
      have hc := countP_set (fun q => q == TaskPhase.running) tasks i TaskPhase.running
        TaskPhase.finished hrun
      simp at hc
      have ih2 : tasks.countP (fun q => q == TaskPhase.running) + a
          = t.maxConcurrency := ih
      show (tasks.set i TaskPhase.finished).countP (fun q => q == TaskPhase.running)
        + (a + 1) = t.maxConcurrency
      omega

/-- C9: at every reachable point of a run, the number of write tasks in
flight — between acquiring a slot of the single shared semaphore created
in `__init__` (line 55) and releasing it on leaving the `async with`
body of `_write_one` (line 81) — never exceeds the configured
max_concurrency, for any number `n` of scheduled write tasks across all
documents and languages. -/
theorem c9_in_flight_tasks_bounded_by_pool (t : Translator) (n : Nat) (s : PoolState)
    (h : PoolReachable (initPool t n) s) :
    runningCount s ≤ t.maxConcurrency := by
  have := poolInvariant h
  omega

theorem c9_in_flight_tasks_bounded_by_pool_witness :
    PoolReachable (initPool sampleTr 3)
      ⟨3, (List.replicate 3 TaskPhase.waiting).set 0 TaskPhase.running⟩ ∧
    runningCount ⟨3, (List.replicate 3 TaskPhase.waiting).set 0 TaskPhase.running⟩
      ≤ sampleTr.maxConcurrency :=
  have hreach : PoolReachable (initPool sampleTr 3)
      ⟨3, (List.replicate 3 TaskPhase.waiting).set 0 TaskPhase.running⟩ :=
    PoolReachable.tail PoolReachable.refl
      (PoolStep.acquire 3 (List.replicate 3 TaskPhase.waiting) 0 rfl)
  ⟨hreach, c9_in_flight_tasks_bounded_by_pool sampleTr 3 _ hreach⟩

/-!
## Claim C7 — the Live-Path Set
-/

theorem mem_foldl_insert {α : Type} (f : α → Fpath) :
    ∀ (l : List α) (s : List Fpath) (p : Fpath),
      p ∈ l.foldl (fun acc x => List.insert (f x) acc) s ↔
        p ∈ s ∨ ∃ x ∈ l, p = f x := by
  intro l
  induction l with
  | nil => intro s p; simp
  | cons a rest ih =>
    intro s p
    rw [List.foldl_cons, ih]
    simp only [List.mem_insert_iff, List.mem_cons]
    constructor
    · rintro (⟨rfl | h⟩ | ⟨x, hx, rfl⟩)
      · exact Or.inr ⟨a, Or.inl rfl, rfl⟩
      · exact Or.inl h
      · exact Or.inr ⟨x, Or.inr hx, rfl⟩
    · rintro (h | ⟨x, rfl | hx, rfl⟩)
      · exact Or.inl (Or.inr h)
      · exact Or.inl (Or.inl rfl)
      · exact Or.inr ⟨x, hx, rfl⟩

theorem markUsed_mem {t : Translator} {o rel : Fpath} {p : Fpath} :
    p ∈ (markUsed t o rel).usedOutputPaths ↔
      p ∈ t.usedOutputPaths ∨ ∃ lang ∈ t.languages, p = outPath o lang rel := by
  unfold markUsed
  exact mem_foldl_insert _ t.languages t.usedOutputPaths p

theorem runFold_used_mem {b : Backend} {o : Fpath} :
    ∀ {docs : List (Fpath × List Nat)} {acc : RunAcc} {p : Fpath},
      p ∈ ((runFold b o docs acc).t).usedOutputPaths ↔
        p ∈ acc.t.usedOutputPaths ∨
          ∃ d ∈ docs, ∃ lang ∈ acc.t.languages, p = outPath o lang d.1 := by
  intro docs
  induction docs with
  | nil => intro acc p; simp [runFold]
  | cons d rest ih =>
    intro acc p
    have e : (runFold b o (d :: rest) acc) = runFold b o rest (runStep b o acc d) := rfl
    rw [e, ih, runStep_t_eq]
    simp only [markUsed_languages, markUsed_mem]
    constructor
    · rintro ((h | ⟨lang, hl, rfl⟩) | ⟨d', hd', lang, hl, rfl⟩)
      · exact Or.inl h
      · exact Or.inr ⟨d, List.mem_cons_self _ _, lang, hl, rfl⟩
      · exact Or.inr ⟨d', List.mem_cons_of_mem _ hd', lang, hl, rfl⟩
    · rintro (h | ⟨d', hd', lang, hl, rfl⟩)
      · exact Or.inl (Or.inl h)
      · rcases List.mem_cons.mp hd' with rfl | hd'
        · exact Or.inl (Or.inr ⟨lang, hl, rfl⟩)
        · exact Or.inr ⟨d', hd', lang, hl, rfl⟩

/-- C7 (amended): on a freshly constructed Translator (empty
used-path set), the set `used_output_paths` handed to the Cleanup Pass —
which is exactly the final Translator state, since `_mark_used` is its
only writer and cleanup only reads it — contains precisely the output
artifact paths implied by the current source tree crossed with the
configured languages, pairs skipped as up to date included (the marking
at line 90 precedes the staleness check).  The claim's further clause
"excluding paths from any earlier run" holds only for this first run:
the set is instance state that is never cleared (see the
counterexample), so later runs of the same instance retain old paths. -/
theorem c7_live_path_set_of_fresh_translator (t : Translator) (backend : Backend)
    (s o : Fpath) (docs : List (Fpath × List Nat)) (disk : Option CacheState) (fs0 : Fs)
    (hfresh : t.usedOutputPaths = []) (p : Fpath) :
    p ∈ ((translateDirectory t backend s o docs disk fs0).t).usedOutputPaths ↔
      ∃ d ∈ docs, ∃ lang ∈ t.languages, p = outPath o lang d.1 := by
  rw [translateDirectory_t, runFold_used_mem]
  simp [runAcc0, hfresh]

theorem c7_live_path_set_of_fresh_translator_witness :
    sampleTr.usedOutputPaths = [] ∧
    (outPath ["out"] "de" ["sub", "b.md"] ∈
        ((translateDirectory sampleTr sampleBackend ["docs"] ["out"] sampleDocs none
          emptyFs).t).usedOutputPaths ↔
      ∃ d ∈ sampleDocs, ∃ lang ∈ sampleTr.languages,
        outPath ["out"] "de" ["sub", "b.md"] = outPath ["out"] lang d.1) :=
  ⟨rfl,
    c7_live_path_set_of_fresh_translator sampleTr sampleBackend ["docs"] ["out"]
      sampleDocs none emptyFs rfl (outPath ["out"] "de" ["sub", "b.md"])⟩

/-- C7 (counterexample): the claim says the Live-Path Set at cleanup
start contains exactly the paths implied by the *current* source tree,
excluding paths from any earlier run.  `used_output_paths` is instance
state initialized once in `__init__` (line 54) and never cleared, so when
the same Translator performs a second run after `sub/b.md` was deleted
from the source, the set handed to cleanup still contains
`out/en/sub/b.md` — a path from the earlier run that the current tree
does not imply — and the stale artifact consequently survives cleanup. -/
theorem c7_live_path_set_excludes_earlier_runs_cex :
    outPath ["out"] "en" ["sub", "b.md"] ∈
      ((translateDirectory
        (translateDirectory sampleTr sampleBackend ["docs"] ["out"] sampleDocs none
          emptyFs).t
        sampleBackend ["docs"] ["out"] [(["a.md"], strBytes "# A")]
        (translateDirectory sampleTr sampleBackend ["docs"] ["out"] sampleDocs none
          emptyFs).disk
        (translateDirectory sampleTr sampleBackend ["docs"] ["out"] sampleDocs none
          emptyFs).fs).t).usedOutputPaths ∧
    outPath ["out"] "en" ["sub", "b.md"] ∉
      impliedPaths ["out"] sampleTr.languages [(["a.md"], strBytes "# A")] ∧
    (translateDirectory
        (translateDirectory sampleTr sampleBackend ["docs"] ["out"] sampleDocs none
          emptyFs).t
        sampleBackend ["docs"] ["out"] [(["a.md"], strBytes "# A")]
        (translateDirectory sampleTr sampleBackend ["docs"] ["out"] sampleDocs none
          emptyFs).disk
        (translateDirectory sampleTr sampleBackend ["docs"] ["out"] sampleDocs none
          emptyFs).fs).fs.lookup (outPath ["out"] "en" ["sub", "b.md"]) ≠ none :=
  ⟨by decide, by decide, by decide⟩

/-!
## Cache completeness after a successful run (claim C5)
-/

theorem lookup_mark_same {c : CacheState} {lang rel : String} {k : CacheKey} :
    (c.mark lang rel k).lookup lang rel = some k := by
  unfold CacheState.mark CacheState.lookup
  rw [List.find?_cons_of_pos _ (by simp)]
  rfl

theorem lookup_mark_other {c : CacheState} {lang rel lang' rel' : String} {k : CacheKey}
    (h : (lang', rel') ≠ (lang, rel)) :
    (c.mark lang rel k).lookup lang' rel' = c.lookup lang' rel' := by
  unfold CacheState.mark CacheState.lookup
  rw [List.find?_cons_of_neg _ (by simp only [beq_iff_eq]; exact fun h2 => h h2.symm)]

theorem isUpToDate_iff {c : CacheState} {lang rel : String} {k : CacheKey} :
    isUpToDate c lang rel k = true ↔ c.lookup lang rel = some k := by
  simp [isUpToDate]

theorem scheduleStep_lookup_own {t : Translator} {rel : Fpath} {bytes : List Nat}
    {acc : List String × CacheState} {a : String} :
    ((scheduleStep t rel bytes acc a).2).lookup a (asPosix rel)
      = some (calcKey t rel a bytes) := by
  unfold scheduleStep
  by_cases hc : (!t.forceTranslation &&
      isUpToDate acc.2 a (asPosix rel) (calcKey t rel a bytes)) = true
  · rw [if_pos hc]
    exact isUpToDate_iff.mp (Bool.and_eq_true_iff.mp hc).2
  · rw [if_neg hc]
    exact lookup_mark_same

theorem scheduleStep_lookup_preserved {t : Translator} {rel : Fpath} {bytes : List Nat}
    {acc : List String × CacheState} {a lang p : String}
    (h : (lang, p) ≠ (a, asPosix rel)) :
    ((scheduleStep t rel bytes acc a).2).lookup lang p = acc.2.lookup lang p := by
  unfold scheduleStep
  by_cases hc : (!t.forceTranslation &&
      isUpToDate acc.2 a (asPosix rel) (calcKey t rel a bytes)) = true
  · rw [if_pos hc]
  · rw [if_neg hc]
    exact lookup_mark_other h

theorem schedFold_lookup_preserved {t : Translator} {rel : Fpath} {bytes : List Nat} :
    ∀ (ls : List String) (acc : List String × CacheState) (lang p : String),
      (∀ l ∈ ls, (lang, p) ≠ (l, asPosix rel)) →
      ((ls.foldl (scheduleStep t rel bytes) acc).2).lookup lang p = acc.2.lookup lang p := by
  intro ls
  induction ls with
  | nil => intro acc lang p _; rfl
  | cons a rest ih =>
    intro acc lang p h
    rw [List.foldl_cons, ih _ _ _ (fun l hl => h l (List.mem_cons_of_mem _ hl)),
      scheduleStep_lookup_preserved (h a (List.mem_cons_self _ _))]

theorem schedFold_lookup_own {t : Translator} {rel : Fpath} {bytes : List Nat} :
    ∀ (ls : List String) (acc : List String × CacheState) (lang : String),
      lang ∈ ls →
      ((ls.foldl (scheduleStep t rel bytes) acc).2).lookup lang (asPosix rel)
        = some (calcKey t rel lang bytes) := by
  intro ls
  induction ls with
  | nil => intro acc lang h; exact absurd h (by simp)
  | cons a rest ih =>
    intro acc lang h
    by_cases hr : lang ∈ rest
    · rw [List.foldl_cons]
      exact ih _ _ hr
    · have ha : lang = a := by
        rcases List.mem_cons.mp h with rfl | h2
        · rfl
        · exact absurd h2 hr
      subst ha
      rw [List.foldl_cons,
        schedFold_lookup_preserved rest _ _ _
          (fun l hl => by simp only [ne_eq, Prod.mk.injEq]; intro ⟨he, _⟩; exact hr (he ▸ hl)),
        scheduleStep_lookup_own]

theorem scheduledLangs_lookup_own {t : Translator} {cache : CacheState} {rel : Fpath}
    {bytes : List Nat} {lang : String} (h : lang ∈ t.languages) :
    ((scheduledLangs t cache rel bytes).2).lookup lang (asPosix rel)
      = some (calcKey t rel lang bytes) :=
  schedFold_lookup_own t.languages ([], cache) lang h

theorem processFile_cache_of_decode {t : Translator} {b : Backend} {o : Fpath}
    {c : CacheState} {doc : Fpath × List Nat} {text : List Nat}
    (h : decodeUtf8 doc.2 = some text) :
    (processFile t b o c doc).cache = (scheduledLangs t c doc.1 doc.2).2 := by
  unfold processFile
  rw [h]

theorem processFile_cache_of_decode_none {t : Translator} {b : Backend} {o : Fpath}
    {c : CacheState} {doc : Fpath × List Nat} (h : decodeUtf8 doc.2 = none) :
    (processFile t b o c doc).cache = c := by
  unfold processFile
  rw [h]

theorem processFile_decode_of_err_none {t : Translator} {b : Backend} {o : Fpath}
    {c : CacheState} {doc : Fpath × List Nat}
    (h : (processFile t b o c doc).err = none) :
    ∃ text, decodeUtf8 doc.2 = some text := by
  cases hdec : decodeUtf8 doc.2 with
  | none => rw [processFile_err_of_decode_none hdec] at h; exact absurd h (by simp)
  | some text => exact ⟨text, rfl⟩

theorem processFile_cache_lookup_preserved {t : Translator} {b : Backend} {o : Fpath}
    {c : CacheState} {doc : Fpath × List Nat} {lang p : String}
    (h : p ≠ asPosix doc.1) :
    ((processFile t b o c doc).cache).lookup lang p = c.lookup lang p := by
  cases hdec : decodeUtf8 doc.2 with
  | none => rw [processFile_cache_of_decode_none hdec]
  | some text =>
    rw [processFile_cache_of_decode hdec]
    exact schedFold_lookup_preserved _ _ _ _
      (fun l _ => by simp only [ne_eq, Prod.mk.injEq]; intro ⟨_, he⟩; exact h he)

theorem runFold_err_start {b : Backend} {o : Fpath} :
    ∀ {docs : List (Fpath × List Nat)} {acc : RunAcc},
      (runFold b o docs acc).err = none → acc.err = none := by
  intro docs
  induction docs with
  | nil => intro acc h; exact h
  | cons d rest ih =>
    intro acc h
    have h2 : (runStep b o acc d).err = none := ih h
    rw [runStep_err, Option.orElse_eq_none] at h2
    exact h2.1

theorem runFold_err_parts {b : Backend} {o : Fpath} {docs : List (Fpath × List Nat)}
    {acc : RunAcc} {d : Fpath × List Nat}
    (h : (runFold b o (d :: docs) acc).err = none) :
    (processFile acc.t b o acc.cache d).err = none ∧
      (runFold b o docs (runStep b o acc d)).err = none := by
  have h2 : (runStep b o acc d).err = none := runFold_err_start h
  rw [runStep_err, Option.orElse_eq_none] at h2
  exact ⟨h2.2, h⟩

theorem runFold_cache_lookup_preserved {b : Backend} {o : Fpath} :
    ∀ {docs : List (Fpath × List Nat)} {acc : RunAcc} {lang p : String},
      (∀ d ∈ docs, p ≠ asPosix d.1) →
      ((runFold b o docs acc).cache).lookup lang p = acc.cache.lookup lang p := by
  intro docs
  induction docs with
  | nil => intro acc lang p _; rfl
  | cons d rest ih =>
    intro acc lang p h
    show ((runFold b o rest (runStep b o acc d)).cache).lookup lang p = _
    rw [ih (fun d' hd' => h d' (List.mem_cons_of_mem _ hd'))]
    exact processFile_cache_lookup_preserved (h d (List.mem_cons_self _ _))

theorem calcKey_markUsed {t : Translator} {o r rel : Fpath} {lang : String}
    {bytes : List Nat} :
    calcKey (markUsed t o r) rel lang bytes = calcKey t rel lang bytes := rfl

/-- After a run that finished without error, the in-memory cache maps
every (language, document) pair of the run to its current fingerprint:
stale pairs were marked at scheduling time and up-to-date pairs already
carried exactly this fingerprint. -/
theorem runFold_cache_complete {b : Backend} {o : Fpath} :
    ∀ {docs : List (Fpath × List Nat)} {acc : RunAcc},
      (runFold b o docs acc).err = none →
      (docs.map (fun d => asPosix d.1)).Nodup →
      ∀ d ∈ docs, ∀ lang ∈ acc.t.languages,
        ((runFold b o docs acc).cache).lookup lang (asPosix d.1)
          = some (calcKey acc.t d.1 lang d.2) := by
  intro docs
  induction docs with
  | nil => intro acc _ _ d hd; exact absurd hd (by simp)
  | cons d0 rest ih =>
    intro acc herr hnodup d hd lang hlang
    obtain ⟨hpf, hrest⟩ := runFold_err_parts herr
    rw [List.map_cons, List.nodup_cons] at hnodup
    rcases List.mem_cons.mp hd with rfl | hmem
    · show ((runFold b o rest (runStep b o acc d)).cache).lookup _ _ = _
      rw [runFold_cache_lookup_preserved
        (fun d' hd' he => hnodup.1 (by rw [he]; exact List.mem_map_of_mem _ hd'))]
      obtain ⟨text, hdec⟩ := processFile_decode_of_err_none hpf
      show ((processFile acc.t b o acc.cache d).cache).lookup _ _ = _
      rw [processFile_cache_of_decode hdec]
      exact scheduledLangs_lookup_own hlang
    · have h2 := ih hrest hnodup.2 d hmem lang
        (by rw [runStep_t_eq, markUsed_languages]; exact hlang)
      rw [runStep_t_eq, calcKey_markUsed] at h2
      exact h2

/-!
## A run over an entirely up-to-date tree makes no backend calls
-/

theorem schedFold_of_all_current {t : Translator} {cache : CacheState} {rel : Fpath}
    {bytes : List Nat} (hforce : t.forceTranslation = false) :
    ∀ (ls : List String),
      (∀ lang ∈ ls, cache.lookup lang (asPosix rel) = some (calcKey t rel lang bytes)) →
      ls.foldl (scheduleStep t rel bytes) ([], cache) = ([], cache) := by
  intro ls
  induction ls with
  | nil => intro _; rfl
  | cons a rest ih =>
    intro h
    rw [List.foldl_cons]
    have hstep : scheduleStep t rel bytes ([], cache) a = ([], cache) := by
      unfold scheduleStep
      rw [if_pos]
      rw [hforce]
      simp only [Bool.not_false, Bool.true_and]
      exact isUpToDate_iff.mpr (h a (List.mem_cons_self _ _))
    rw [hstep]
    exact ih (fun l hl => h l (List.mem_cons_of_mem _ hl))

theorem scheduledLangs_of_all_current {t : Translator} {cache : CacheState} {rel : Fpath}
    {bytes : List Nat} (hforce : t.forceTranslation = false)
    (h : ∀ lang ∈ t.languages,
      cache.lookup lang (asPosix rel) = some (calcKey t rel lang bytes)) :
    scheduledLangs t cache rel bytes = ([], cache) :=
  schedFold_of_all_current hforce t.languages h

theorem processFile_of_all_current {t : Translator} {b : Backend} {o : Fpath}
    {c : CacheState} {doc : Fpath × List Nat}
    (hforce : t.forceTranslation = false)
    (h : ∀ lang ∈ t.languages,
      c.lookup lang (asPosix doc.1) = some (calcKey t doc.1 lang doc.2)) :
    (processFile t b o c doc).calls = [] ∧ (processFile t b o c doc).cache = c := by
  cases hdec : decodeUtf8 doc.2 with
  | none =>
    constructor
    · unfold processFile; rw [hdec]
    · exact processFile_cache_of_decode_none hdec
  | some text =>
    have hs := scheduledLangs_of_all_current hforce h
    constructor
    · unfold processFile
      rw [hdec]
      simp only [hs]
      rfl
    · rw [processFile_cache_of_decode hdec, hs]

theorem runFold_calls_of_all_current {b : Backend} {o : Fpath} :
    ∀ {docs : List (Fpath × List Nat)} {acc : RunAcc},
      acc.t.forceTranslation = false →
      (∀ d ∈ docs, ∀ lang ∈ acc.t.languages,
        acc.cache.lookup lang (asPosix d.1) = some (calcKey acc.t d.1 lang d.2)) →
      (runFold b o docs acc).calls = acc.calls := by
  intro docs
  induction docs with
  | nil => intro acc _ _; rfl
  | cons d rest ih =>
    intro acc hforce h
    have hcur := h d (List.mem_cons_self _ _)
    obtain ⟨hcalls, hcache⟩ :=
      @processFile_of_all_current acc.t b o acc.cache d hforce hcur
    show (runFold b o rest (runStep b o acc d)).calls = acc.calls
    rw [ih]
    · show acc.calls ++ (processFile acc.t b o acc.cache d).calls = acc.calls
      rw [hcalls, List.append_nil]
    · rw [runStep_t_eq, markUsed_forceTranslation]
      exact hforce
    · intro d' hd' lang hlang
      rw [runStep_t_eq, markUsed_languages] at hlang
      show ((processFile acc.t b o acc.cache d).cache).lookup _ _ = _
      rw [hcache, runStep_t_eq, calcKey_markUsed]
      exact h d' (List.mem_cons_of_mem _ hd') lang hlang

theorem calcKey_congr {t t' : Translator} {rel : Fpath} {lang : String} {bytes : List Nat}
    (h1 : t'.translationInstruction = t.translationInstruction)
    (h2 : t'.model = t.model) :
    calcKey t' rel lang bytes = calcKey t rel lang bytes := by
  unfold calcKey
  rw [h1, h2]

/-!
## Claim C5 — idempotence
-/

/-- C5: a complete, successful translation pass persists every pair's
fingerprint; a second pass over the same documents with the same
instruction text and model (carried unchanged in the Translator
configuration) and force unset finds every pair up to date and issues
zero backend calls — whatever backend the second pass would have used.
Documents carry pairwise distinct relative paths, as produced by the
`rglob` walk. -/
theorem c5_second_run_makes_zero_backend_calls (t : Translator) (b1 b2 : Backend)
    (s o : Fpath) (docs : List (Fpath × List Nat)) (disk : Option CacheState) (fs0 : Fs)
    (hforce : t.forceTranslation = false)
    (hnodup : (docs.map (fun d => asPosix d.1)).Nodup)
    (hok : (translateDirectory t b1 s o docs disk fs0).err = none) :
    (translateDirectory (translateDirectory t b1 s o docs disk fs0).t b2 s o docs
      (translateDirectory t b1 s o docs disk fs0).disk
      (translateDirectory t b1 s o docs disk fs0).fs).calls = [] := by
  have herr : (runFold b1 o docs (runAcc0 t disk)).err = none := by
    rw [← @translateDirectory_err t b1 s o docs disk fs0]
    exact hok
  have hdisk := @translateDirectory_disk_of_ok t b1 s o docs disk fs0 hok
  have ht := @translateDirectory_t t b1 s o docs disk fs0
  have hcfg := runFold_t_config b1 o docs (runAcc0 t disk)
  rw [translateDirectory_calls, hdisk, ht]
  apply runFold_calls_of_all_current
  · show ((runFold b1 o docs (runAcc0 t disk)).t).forceTranslation = false
    rw [hcfg.2.2.2.2]
    exact hforce
  · intro d hd lang hlang
    have hlang2 : lang ∈ ((runFold b1 o docs (runAcc0 t disk)).t).languages := hlang
    rw [hcfg.2.1] at hlang2
    have hcomplete := runFold_cache_complete herr hnodup d hd lang hlang2
    show ((runFold b1 o docs (runAcc0 t disk)).cache).lookup lang (asPosix d.1)
      = some (calcKey ((runFold b1 o docs (runAcc0 t disk)).t) d.1 lang d.2)
    rw [calcKey_congr hcfg.2.2.2.1 hcfg.2.2.1]
    exact hcomplete

theorem c5_second_run_makes_zero_backend_calls_witness :
    (sampleTr.forceTranslation = false ∧
      (sampleDocs.map (fun d => asPosix d.1)).Nodup ∧
      (translateDirectory sampleTr sampleBackend ["docs"] ["out"] sampleDocs none
        emptyFs).err = none) ∧
    (translateDirectory
      (translateDirectory sampleTr sampleBackend ["docs"] ["out"] sampleDocs none
        emptyFs).t
      sampleBackend ["docs"] ["out"] sampleDocs
      (translateDirectory sampleTr sampleBackend ["docs"] ["out"] sampleDocs none
        emptyFs).disk
      (translateDirectory sampleTr sampleBackend ["docs"] ["out"] sampleDocs none
        emptyFs).fs).calls = [] :=
  ⟨⟨rfl, by decide, rfl⟩,
    c5_second_run_makes_zero_backend_calls sampleTr sampleBackend sampleBackend
      ["docs"] ["out"] sampleDocs none emptyFs rfl (by decide) rfl⟩

/-!
## Path lemmas for the cleanup pass (claim C8)
-/

theorem properLead_iff : ∀ (base p : Fpath),
    properLead base p = true ↔ ∃ s, s ≠ [] ∧ p = base ++ s := by
  intro base
  induction base with
  | nil =>
    intro p
    cases p with
    | nil => simp [properLead]
    | cons x xs =>
      simp only [properLead, List.nil_append, true_iff]
      exact ⟨x :: xs, by simp, rfl⟩
  | cons a as ih =>
    intro p
    cases p with
    | nil => simp [properLead]
    | cons b bs =>
      simp only [properLead, Bool.and_eq_true, beq_iff_eq, ih bs]
      constructor
      · rintro ⟨rfl, s, hs, rfl⟩
        exact ⟨s, hs, rfl⟩
      · rintro ⟨s, hs, he⟩
        rw [List.cons_append] at he
        injection he with h1 h2
        exact ⟨h1.symm, s, hs, h2⟩

theorem properLead_append {base : Fpath} {s : Fpath} (hs : s ≠ []) :
    properLead base (base ++ s) = true := by
  rw [properLead_iff]
  exact ⟨s, hs, rfl⟩

theorem properLead_irrefl (p : Fpath) : properLead p p = false := by
  by_contra h
  rw [Bool.not_eq_false, properLead_iff] at h
  obtain ⟨s, hs, he⟩ := h
  have hlen := congrArg List.length he
  simp only [List.length_append] at hlen
  have : s.length = 0 := by omega
  exact hs (List.eq_nil_of_length_eq_zero this)

theorem properLead_length_lt {a b : Fpath} (h : properLead a b = true) :
    a.length < b.length := by
  rw [properLead_iff] at h
  obtain ⟨s, hs, rfl⟩ := h
  have : 0 < s.length := List.length_pos.mpr hs
  simp [List.length_append]
  omega

theorem properLead_trans {a b c : Fpath} (h1 : properLead a b = true)
    (h2 : properLead b c = true) : properLead a c = true := by
  rw [properLead_iff] at h1 h2 ⊢
  obtain ⟨s1, hs1, rfl⟩ := h1
  obtain ⟨s2, hs2, rfl⟩ := h2
  exact ⟨s1 ++ s2, by simp [hs1], by rw [List.append_assoc]⟩

/-- Distinct language directories have disjoint subtrees. -/
theorem properLead_lang_disjoint {o : Fpath} {l1 l2 : String} {p : Fpath}
    (hne : l1 ≠ l2) (h1 : properLead (o ++ [l1]) p = true) :
    properLead (o ++ [l2]) p = false := by
  by_contra h2
  rw [Bool.not_eq_false, properLead_iff] at h2
  rw [properLead_iff] at h1
  obtain ⟨s1, _, he1⟩ := h1
  obtain ⟨s2, _, he2⟩ := h2
  rw [he1] at he2
  rw [List.append_assoc, List.append_assoc] at he2
  have := List.append_cancel_left he2
  simp only [List.cons_append, List.nil_append, List.cons.injEq] at this
  exact hne this.1

theorem mem_strictLeads {p q : Fpath} : q ∈ strictLeads p ↔ properLead q p = true := by
  unfold strictLeads
  rw [properLead_iff]
  simp only [List.mem_map, List.mem_range]
  constructor
  · rintro ⟨i, hi, rfl⟩
    refine ⟨p.drop i, ?_, (List.take_append_drop i p).symm⟩
    intro hd
    have := congrArg List.length hd
    simp at this
    omega
  · rintro ⟨s, hs, rfl⟩
    refine ⟨q.length, ?_, ?_⟩
    · have : 0 < s.length := List.length_pos.mpr hs
      simp [List.length_append]
      omega
    · rw [List.take_left]

theorem fsClosed_iff {fs : Fs} :
    fsClosed fs = true ↔
      ((∀ e ∈ fs.dirs, ∀ l, properLead l e = true → l ∈ fs.dirs) ∧
       (∀ f ∈ fs.files, ∀ l, properLead l f.1 = true → l ∈ fs.dirs)) := by
  unfold fsClosed
  simp only [Bool.and_eq_true, List.all_eq_true, decide_eq_true_eq]
  constructor
  · rintro ⟨h1, h2⟩
    exact ⟨fun e he l hl => h1 e he l (mem_strictLeads.mpr hl),
           fun f hf l hl => h2 f hf l (mem_strictLeads.mpr hl)⟩
  · rintro ⟨h1, h2⟩
    exact ⟨fun e he l hl => h1 e he l (mem_strictLeads.mp hl),
           fun f hf l hl => h2 f hf l (mem_strictLeads.mp hl)⟩

/-!
## Pruning: deepest-first removal of empty directories
-/

theorem mem_insertDeep {d x : Fpath} : ∀ {l : List Fpath},
    x ∈ insertDeep d l ↔ x = d ∨ x ∈ l := by
  intro l
  induction l with
  | nil => simp [insertDeep]
  | cons e es ih =>
    unfold insertDeep
    by_cases hc : e.length ≤ d.length
    · rw [if_pos hc]
      simp
    · rw [if_neg hc]
      simp only [List.mem_cons, ih]
      tauto

theorem mem_deepFirst {x : Fpath} : ∀ {l : List Fpath}, x ∈ deepFirst l ↔ x ∈ l := by
  intro l
  induction l with
  | nil => simp [deepFirst]
  | cons e es ih =>
    show x ∈ insertDeep e (deepFirst es) ↔ _
    rw [mem_insertDeep, ih]
    simp

theorem insertDeep_pairwise {d : Fpath} : ∀ {l : List Fpath},
    l.Pairwise (fun a b => b.length ≤ a.length) →
    (insertDeep d l).Pairwise (fun a b => b.length ≤ a.length) := by
  intro l
  induction l with
  | nil => intro _; simp [insertDeep]
  | cons e es ih =>
    intro h
    rw [List.pairwise_cons] at h
    unfold insertDeep
    by_cases hc : e.length ≤ d.length
    · rw [if_pos hc]
      rw [List.pairwise_cons]
      constructor
      · intro x hx
        rcases List.mem_cons.mp hx with rfl | hx
        · exact hc
        · exact Nat.le_trans (h.1 x hx) hc
      · rw [List.pairwise_cons]
        exact h
    · rw [if_neg hc]
      rw [List.pairwise_cons]
      constructor
      · intro x hx
        rcases mem_insertDeep.mp hx with rfl | hx
        · omega
        · exact h.1 x hx
      · exact ih h.2

theorem deepFirst_pairwise : ∀ {l : List Fpath},
    (deepFirst l).Pairwise (fun a b => b.length ≤ a.length) := by
  intro l
  induction l with
  | nil => simp [deepFirst]
  | cons e es ih => exact insertDeep_pairwise ih

theorem pruneStep_files {fs : Fs} {d : Fpath} : (pruneStep fs d).files = fs.files := by
  unfold pruneStep
  by_cases hc : dirEmpty fs d = true
  · rw [if_pos hc]
  · rw [if_neg hc]

theorem pruneFold_files : ∀ {L : List Fpath} {fs : Fs},
    (L.foldl pruneStep fs).files = fs.files := by
  intro L
  induction L with
  | nil => intro fs; rfl
  | cons d rest ih =>
    intro fs
    show (rest.foldl pruneStep (pruneStep fs d)).files = fs.files
    rw [ih, pruneStep_files]

theorem pruneStep_dirs_subset {fs : Fs} {d e : Fpath} (h : e ∈ (pruneStep fs d).dirs) :
    e ∈ fs.dirs := by
  unfold pruneStep at h
  by_cases hc : dirEmpty fs d = true
  · rw [if_pos hc] at h
    exact List.mem_of_mem_filter h
  · rw [if_neg hc] at h
    exact h

theorem pruneFold_dirs_subset : ∀ {L : List Fpath} {fs : Fs} {e : Fpath},
    e ∈ (L.foldl pruneStep fs).dirs → e ∈ fs.dirs := by
  intro L
  induction L with
  | nil => intro fs e h; exact h
  | cons d rest ih =>
    intro fs e h
    exact pruneStep_dirs_subset (ih h)

theorem pruneStep_dirs_other {fs : Fs} {d e : Fpath} (hne : e ≠ d) :
    e ∈ (pruneStep fs d).dirs ↔ e ∈ fs.dirs := by
  unfold pruneStep
  by_cases hc : dirEmpty fs d = true
  · rw [if_pos hc]
    simp only [List.mem_filter, Bool.not_eq_eq_eq_not, Bool.not_true, beq_eq_false_iff_ne,
      ne_eq, decide_eq_true_eq]
    constructor
    · exact fun h => h.1
    · exact fun h => ⟨h, by simpa using hne⟩
  · rw [if_neg hc]

theorem dirEmpty_false_iff {fs : Fs} {e : Fpath} :
    dirEmpty fs e = false ↔
      (∃ f ∈ fs.files, properLead e f.1 = true) ∨
        (∃ g ∈ fs.dirs, properLead e g = true) := by
  unfold dirEmpty
  rw [Bool.and_eq_false_iff]
  constructor
  · rintro (h | h) <;>
      [left; right] <;>
      · rw [List.all_eq_false] at h
        obtain ⟨x, hx, hp⟩ := h
        exact ⟨x, hx, by simpa using hp⟩
  · rintro (⟨f, hf, hp⟩ | ⟨g, hg, hp⟩) <;>
      [left; right] <;>
      · rw [List.all_eq_false]
        exact ⟨_, by assumption, by simpa using hp⟩

/-- The heart of the cleanup pass: after pruning deepest-first a list of
candidate directories that covers, under `base`, every directory of the
filesystem not permanently witnessed nonempty by a file, no directory
under `base` that survives is empty.  A directory kept at its own step
was nonempty then; everything inside it was processed earlier (it is
deeper, hence earlier in the order), so its contents never shrink
afterwards. -/
theorem pruneFold_no_empty (base : Fpath) :
    ∀ (L : List Fpath) (fs : Fs),
      L.Pairwise (fun a b => b.length ≤ a.length) →
      (∀ e ∈ fs.dirs, properLead base e = true →
        e ∈ L ∨ ∃ f ∈ fs.files, properLead e f.1 = true) →
      ∀ e ∈ (L.foldl pruneStep fs).dirs, properLead base e = true →
        dirEmpty (L.foldl pruneStep fs) e = false := by
  intro L
  induction L with
  | nil =>
    intro fs _ hcov e he hunder
    rcases hcov e he hunder with h | ⟨f, hf, hp⟩
    · exact absurd h (by simp)
    · exact dirEmpty_false_iff.mpr (Or.inl ⟨f, hf, hp⟩)
  | cons d rest ih =>
    intro fs hsort hcov e he hunder
    rw [List.pairwise_cons] at hsort
    show dirEmpty (rest.foldl pruneStep (pruneStep fs d)) e = false
    apply ih (pruneStep fs d) hsort.2 ?_ e he hunder
    intro g hg hgunder
    have hgfs : g ∈ fs.dirs := pruneStep_dirs_subset hg
    rcases hcov g hgfs hgunder with hmem | ⟨f, hf, hp⟩
    · rcases List.mem_cons.mp hmem with rfl | hmem
      · -- g = d survived its own step, so d was nonempty; the witness
        -- cannot be a directory in the list (it is deeper than the
        -- maximal candidate), so it is a file, which pruning preserves.
        have hkept : dirEmpty fs g = false := by
          by_contra hc
          rw [Bool.not_eq_false] at hc
          unfold pruneStep at hg
          rw [if_pos hc] at hg
          simp only [List.mem_filter] at hg
          simpa using hg.2
        rcases dirEmpty_false_iff.mp hkept with ⟨f, hf, hp⟩ | ⟨x, hx, hp⟩
        · exact Or.inr ⟨f, by rw [pruneStep_files]; exact hf, hp⟩
        · have hxunder : properLead base x = true := properLead_trans hgunder hp
          rcases hcov x hx hxunder with hxmem | ⟨f, hf, hfp⟩
          · rcases List.mem_cons.mp hxmem with rfl | hxmem
            · rw [properLead_irrefl] at hp
              exact absurd hp (by simp)
            · have h1 := hsort.1 x hxmem
              have h2 := properLead_length_lt hp
              omega
          · exact Or.inr ⟨f, by rw [pruneStep_files]; exact hf,
              properLead_trans hp hfp⟩
      · exact Or.inl hmem
    · exact Or.inr ⟨f, by rw [pruneStep_files]; exact hf, hp⟩

/-!
## cleanupLang characterizations
-/

theorem cleanupLang_files {used : List Fpath} {langDir : Fpath} {fs : Fs} :
    (cleanupLang used langDir fs).files =
      fs.files.filter
        (fun f => !(properLead langDir f.1 && hasMdExt f.1 && !(decide (f.1 ∈ used)))) := by
  unfold cleanupLang
  rw [pruneFold_files]

theorem cleanupLang_no_empty {used : List Fpath} {langDir : Fpath} {fs : Fs} :
    ∀ e ∈ (cleanupLang used langDir fs).dirs, properLead langDir e = true →
      dirEmpty (cleanupLang used langDir fs) e = false := by
  intro e he hunder
  unfold cleanupLang at he ⊢
  apply pruneFold_no_empty langDir _ _ deepFirst_pairwise ?_ e he hunder
  intro g hg hgunder
  exact Or.inl (mem_deepFirst.mpr (List.mem_filter.mpr ⟨hg, hgunder⟩))

theorem cleanupLang_dirs_subset {used : List Fpath} {langDir : Fpath} {fs : Fs} {e : Fpath}
    (h : e ∈ (cleanupLang used langDir fs).dirs) : e ∈ fs.dirs := by
  simp only [cleanupLang] at h
  have h3 := pruneFold_dirs_subset h
  exact h3

theorem pruneFold_dirs_outside {base : Fpath} :
    ∀ {L : List Fpath} {fs : Fs} {q : Fpath},
      (∀ d ∈ L, properLead base d = true) → properLead base q = false →
      (q ∈ (L.foldl pruneStep fs).dirs ↔ q ∈ fs.dirs) := by
  intro L
  induction L with
  | nil => intro fs q _ _; rfl
  | cons d rest ih =>
    intro fs q hL hq
    have hqd : q ≠ d := by
      intro he
      rw [he, hL d (List.mem_cons_self _ _)] at hq
      exact absurd hq (by simp)
    show q ∈ (rest.foldl pruneStep (pruneStep fs d)).dirs ↔ _
    rw [ih (fun x hx => hL x (List.mem_cons_of_mem _ hx)) hq,
      pruneStep_dirs_other hqd]

theorem cleanupLang_dirs_outside {used : List Fpath} {langDir : Fpath} {fs : Fs}
    {q : Fpath} (hq : properLead langDir q = false) :
    (q ∈ (cleanupLang used langDir fs).dirs ↔ q ∈ fs.dirs) := by
  unfold cleanupLang
  exact pruneFold_dirs_outside
    (fun d hd => (List.mem_filter.mp (mem_deepFirst.mp hd)).2) hq

theorem cleanupLang_files_outside {used : List Fpath} {langDir : Fpath} {fs : Fs}
    {f : Fpath × List Nat} (hq : properLead langDir f.1 = false) :
    (f ∈ (cleanupLang used langDir fs).files ↔ f ∈ fs.files) := by
  rw [cleanupLang_files, List.mem_filter]
  constructor
  · exact fun h => h.1
  · exact fun h => ⟨h, by rw [hq]; rfl⟩

theorem dirEmpty_congr {fs fs' : Fs} {e : Fpath}
    (hf : ∀ f : Fpath × List Nat, properLead e f.1 = true →
      (f ∈ fs'.files ↔ f ∈ fs.files))
    (hd : ∀ q : Fpath, properLead e q = true → (q ∈ fs'.dirs ↔ q ∈ fs.dirs)) :
    dirEmpty fs' e = dirEmpty fs e := by
  have hiff : dirEmpty fs' e = false ↔ dirEmpty fs e = false := by
    rw [dirEmpty_false_iff, dirEmpty_false_iff]
    constructor
    · rintro (⟨f, h1, h2⟩ | ⟨g, h1, h2⟩)
      · exact Or.inl ⟨f, (hf f h2).mp h1, h2⟩
      · exact Or.inr ⟨g, (hd g h2).mp h1, h2⟩
    · rintro (⟨f, h1, h2⟩ | ⟨g, h1, h2⟩)
      · exact Or.inl ⟨f, (hf f h2).mpr h1, h2⟩
      · exact Or.inr ⟨g, (hd g h2).mpr h1, h2⟩
  cases h1 : dirEmpty fs' e <;> cases h2 : dirEmpty fs e
  · rfl
  · exact absurd (hiff.mp h1) (by rw [h2]; simp)
  · exact absurd (hiff.mpr h2) (by rw [h1]; simp)
  · rfl

/-- Cleaning the subtree of a different language changes nothing about a
directory of this language's subtree: not its presence, not its
emptiness. -/
theorem cleanupLang_other_lang {used : List Fpath} {o : Fpath} {l1 l2 : String} {fs : Fs}
    {e : Fpath} (hne : l2 ≠ l1) (hunder : properLead (o ++ [l1]) e = true) :
    (e ∈ (cleanupLang used (o ++ [l2]) fs).dirs ↔ e ∈ fs.dirs) ∧
      dirEmpty (cleanupLang used (o ++ [l2]) fs) e = dirEmpty fs e := by
  have hout : properLead (o ++ [l2]) e = false :=
    properLead_lang_disjoint (fun h => hne h.symm) hunder
  refine ⟨cleanupLang_dirs_outside hout, ?_⟩
  apply dirEmpty_congr
  · intro f hp
    exact cleanupLang_files_outside
      (properLead_lang_disjoint (fun h => hne h.symm) (properLead_trans hunder hp))
  · intro q hp
    exact cleanupLang_dirs_outside
      (properLead_lang_disjoint (fun h => hne h.symm) (properLead_trans hunder hp))

/-!
## Filesystem closure is preserved by writes and cleanup
-/

theorem mem_foldr_insert {x : Fpath} : ∀ {l : List Fpath} {s : List Fpath},
    x ∈ l.foldr List.insert s ↔ x ∈ l ∨ x ∈ s := by
  intro l
  induction l with
  | nil => intro s; simp
  | cons a rest ih =>
    intro s
    simp only [List.foldr_cons, List.mem_insert_iff, ih, List.mem_cons]
    tauto

theorem applyWrite_dirs {fs : Fs} {w : Fpath × List Nat} {q : Fpath} :
    q ∈ (fs.applyWrite w).dirs ↔ q ∈ strictLeads w.1 ∨ q ∈ fs.dirs := by
  unfold Fs.applyWrite
  exact mem_foldr_insert

theorem applyWrite_files {fs : Fs} {w : Fpath × List Nat} {f : Fpath × List Nat} :
    f ∈ (fs.applyWrite w).files ↔ f = w ∨ (f ∈ fs.files ∧ ¬(f.1 = w.1)) := by
  unfold Fs.applyWrite
  simp only [List.mem_cons, List.mem_filter, Bool.not_eq_eq_eq_not, Bool.not_true,
    beq_eq_false_iff_ne, ne_eq]

theorem applyWrite_closed {fs : Fs} {w : Fpath × List Nat}
    (h : fsClosed fs = true) : fsClosed (fs.applyWrite w) = true := by
  rw [fsClosed_iff] at h ⊢
  obtain ⟨hdirs, hfiles⟩ := h
  constructor
  · intro e he l hl
    rcases applyWrite_dirs.mp he with he | he
    · exact applyWrite_dirs.mpr (Or.inl (mem_strictLeads.mpr
        (properLead_trans hl (mem_strictLeads.mp he))))
    · exact applyWrite_dirs.mpr (Or.inr (hdirs e he l hl))
  · intro f hf l hl
    rcases applyWrite_files.mp hf with rfl | ⟨hf, _⟩
    · exact applyWrite_dirs.mpr (Or.inl (mem_strictLeads.mpr hl))
    · exact applyWrite_dirs.mpr (Or.inr (hfiles f hf l hl))

theorem applyWrites_closed : ∀ {ws : List (Fpath × List Nat)} {fs : Fs},
    fsClosed fs = true → fsClosed (ws.foldl Fs.applyWrite fs) = true := by
  intro ws
  induction ws with
  | nil => intro fs h; exact h
  | cons w rest ih => intro fs h; exact ih (applyWrite_closed h)

theorem pruneStep_closed {fs : Fs} {d : Fpath} (h : fsClosed fs = true) :
    fsClosed (pruneStep fs d) = true := by
  rw [fsClosed_iff] at h
  obtain ⟨hdirs, hfiles⟩ := h
  unfold pruneStep
  by_cases hc : dirEmpty fs d = true
  · rw [if_pos hc, fsClosed_iff]
    constructor
    · intro e he l hl
      simp only [List.mem_filter, Bool.not_eq_eq_eq_not, Bool.not_true,
        beq_eq_false_iff_ne, ne_eq] at he
      have hld : l ∈ fs.dirs := hdirs e he.1 l hl
      have hlne : l ≠ d := by
        rintro rfl
        have hne : dirEmpty fs l = false :=
          dirEmpty_false_iff.mpr (Or.inr ⟨e, he.1, hl⟩)
        rw [hne] at hc
        exact absurd hc (by simp)
      exact List.mem_filter.mpr ⟨hld, by simp [hlne]⟩
    · intro f hf l hl
      have hld : l ∈ fs.dirs := hfiles f hf l hl
      have hlne : l ≠ d := by
        rintro rfl
        have hne : dirEmpty fs l = false :=
          dirEmpty_false_iff.mpr (Or.inl ⟨f, hf, hl⟩)
        rw [hne] at hc
        exact absurd hc (by simp)
      exact List.mem_filter.mpr ⟨hld, by simp [hlne]⟩
  · rw [if_neg hc, fsClosed_iff]
    exact ⟨hdirs, hfiles⟩

theorem pruneFold_closed : ∀ {L : List Fpath} {fs : Fs},
    fsClosed fs = true → fsClosed (L.foldl pruneStep fs) = true := by
  intro L
  induction L with
  | nil => intro fs h; exact h
  | cons d rest ih => intro fs h; exact ih (pruneStep_closed h)

theorem cleanupLang_closed {used : List Fpath} {langDir : Fpath} {fs : Fs}
    (h : fsClosed fs = true) : fsClosed (cleanupLang used langDir fs) = true := by
  simp only [cleanupLang]
  apply pruneFold_closed
  rw [fsClosed_iff] at h ⊢
  obtain ⟨hdirs, hfiles⟩ := h
  constructor
  · intro e he l hl
    exact hdirs e he l hl
  · intro f hf l hl
    exact hfiles f (List.mem_of_mem_filter hf) l hl

theorem cleanupStep_closed {used : List Fpath} {out : Fpath} {fs : Fs} {lang : String}
    (h : fsClosed fs = true) : fsClosed (cleanupStep used out fs lang) = true := by
  unfold cleanupStep
  by_cases hg : (out ++ [lang]) ∈ fs.dirs
  · rw [if_pos (by simpa using hg)]
    exact cleanupLang_closed h
  · rw [if_neg (by simpa using hg)]
    exact h

theorem cleanupFold_closed {used : List Fpath} {out : Fpath} :
    ∀ {ls : List String} {fs : Fs}, fsClosed fs = true →
      fsClosed (ls.foldl (cleanupStep used out) fs) = true := by
  intro ls
  induction ls with
  | nil => intro fs h; exact h
  | cons l rest ih => intro fs h; exact ih (cleanupStep_closed h)

/-!
## File removal and preservation through the cleanup fold
-/

theorem cleanupLang_files_subset {used : List Fpath} {langDir : Fpath} {fs : Fs}
    {f : Fpath × List Nat} (h : f ∈ (cleanupLang used langDir fs).files) :
    f ∈ fs.files := by
  rw [cleanupLang_files] at h
  exact List.mem_of_mem_filter h

theorem cleanupStep_files_subset {used : List Fpath} {out : Fpath} {fs : Fs}
    {lang : String} {f : Fpath × List Nat}
    (h : f ∈ (cleanupStep used out fs lang).files) : f ∈ fs.files := by
  unfold cleanupStep at h
  by_cases hg : (out ++ [lang]) ∈ fs.dirs
  · rw [if_pos (by simpa using hg)] at h
    exact cleanupLang_files_subset h
  · rw [if_neg (by simpa using hg)] at h
    exact h

theorem cleanupFold_files_subset {used : List Fpath} {out : Fpath} :
    ∀ {ls : List String} {fs : Fs} {f : Fpath × List Nat},
      f ∈ (ls.foldl (cleanupStep used out) fs).files → f ∈ fs.files := by
  intro ls
  induction ls with
  | nil => intro fs f h; exact h
  | cons l rest ih => intro fs f h; exact cleanupStep_files_subset (ih h)

theorem cleanupLang_removes {used : List Fpath} {langDir : Fpath} {fs : Fs} {p : Fpath}
    (hunder : properLead langDir p = true) (hmd : hasMdExt p = true)
    (hnot : p ∉ used) : ∀ b, (p, b) ∉ (cleanupLang used langDir fs).files := by
  intro b hmem
  rw [cleanupLang_files, List.mem_filter] at hmem
  have h2 := hmem.2
  simp only [hunder, hmd, Bool.true_and, Bool.not_eq_eq_eq_not, Bool.not_true] at h2
  simp [hnot] at h2

theorem cleanupStep_removes {used : List Fpath} {out : Fpath} {fs : Fs} {lang0 : String}
    {p : Fpath} (hclosed : fsClosed fs = true)
    (hunder : properLead (out ++ [lang0]) p = true) (hmd : hasMdExt p = true)
    (hnot : p ∉ used) : ∀ b, (p, b) ∉ (cleanupStep used out fs lang0).files := by
  intro b
  unfold cleanupStep
  by_cases hg : (out ++ [lang0]) ∈ fs.dirs
  · rw [if_pos (by simpa using hg)]
    exact cleanupLang_removes hunder hmd hnot b
  · rw [if_neg (by simpa using hg)]
    intro hmem
    have := (fsClosed_iff.mp hclosed).2 (p, b) hmem (out ++ [lang0]) hunder
    exact hg this

theorem cleanupFold_removes {used : List Fpath} {out : Fpath} :
    ∀ (ls : List String) (fs : Fs), fsClosed fs = true →
      ∀ lang0 ∈ ls, ∀ p : Fpath, properLead (out ++ [lang0]) p = true →
        hasMdExt p = true → p ∉ used →
        ∀ b, (p, b) ∉ (ls.foldl (cleanupStep used out) fs).files := by
  intro ls
  induction ls with
  | nil => intro fs _ lang0 h; exact absurd h (by simp)
  | cons l rest ih =>
    intro fs hclosed lang0 hl p hunder hmd hnot b hmem
    rcases List.mem_cons.mp hl with rfl | hmem2
    · have h2 : (p, b) ∈ (cleanupStep used out fs lang0).files :=
        cleanupFold_files_subset hmem
      exact cleanupStep_removes hclosed hunder hmd hnot b h2
    · exact ih (cleanupStep used out fs l) (cleanupStep_closed hclosed) lang0 hmem2 p
        hunder hmd hnot b hmem

theorem find?_filter_of_keep {α : Type} (q keep : α → Bool) :
    ∀ (l : List α), (∀ x ∈ l, q x = true → keep x = true) →
      (l.filter keep).find? q = l.find? q := by
  intro l
  induction l with
  | nil => intro _; rfl
  | cons x xs ih =>
    intro h
    by_cases hq : q x = true
    · have hk := h x (List.mem_cons_self _ _) hq
      rw [List.filter_cons_of_pos hk, List.find?_cons_of_pos _ hq,
        List.find?_cons_of_pos _ hq]
    · have hq2 : ¬ (q x = true) := hq
      by_cases hk : keep x = true
      · rw [List.filter_cons_of_pos hk, List.find?_cons_of_neg _ hq2,
          List.find?_cons_of_neg _ hq2]
        exact ih (fun y hy => h y (List.mem_cons_of_mem _ hy))
      · rw [List.filter_cons_of_neg (by simpa using hk), List.find?_cons_of_neg _ hq2]
        exact ih (fun y hy => h y (List.mem_cons_of_mem _ hy))

theorem cleanupLang_lookup_of_used {used : List Fpath} {langDir : Fpath} {fs : Fs}
    {p : Fpath} (hp : p ∈ used) :
    (cleanupLang used langDir fs).lookup p = fs.lookup p := by
  unfold Fs.lookup
  rw [cleanupLang_files, find?_filter_of_keep]
  intro x hx hqx
  have hx1 : x.1 = p := by simpa using hqx
  rw [hx1]
  simp [hp]

theorem cleanupStep_lookup_of_used {used : List Fpath} {out : Fpath} {fs : Fs}
    {lang : String} {p : Fpath} (hp : p ∈ used) :
    (cleanupStep used out fs lang).lookup p = fs.lookup p := by
  unfold cleanupStep
  by_cases hg : (out ++ [lang]) ∈ fs.dirs
  · rw [if_pos (by simpa using hg)]
    exact cleanupLang_lookup_of_used hp
  · rw [if_neg (by simpa using hg)]

theorem cleanupFold_lookup_of_used {used : List Fpath} {out : Fpath} :
    ∀ {ls : List String} {fs : Fs} {p : Fpath}, p ∈ used →
      (ls.foldl (cleanupStep used out) fs).lookup p = fs.lookup p := by
  intro ls
  induction ls with
  | nil => intro fs p _; rfl
  | cons l rest ih =>
    intro fs p hp
    show (rest.foldl (cleanupStep used out) (cleanupStep used out fs l)).lookup p = _
    rw [ih hp, cleanupStep_lookup_of_used hp]

theorem lookup_none_iff {fs : Fs} {p : Fpath} :
    fs.lookup p = none ↔ ∀ f ∈ fs.files, ¬(f.1 = p) := by
  unfold Fs.lookup
  simp [List.find?_eq_none]

/-!
## No directory under a cleaned language directory stays empty
-/

theorem cleanupFold_preserve_no_empty {used : List Fpath} {out : Fpath} {l : String} :
    ∀ (rest : List String) (fs1 : Fs), l ∉ rest →
      (∀ e ∈ fs1.dirs, properLead (out ++ [l]) e = true → dirEmpty fs1 e = false) →
      ∀ e ∈ (rest.foldl (cleanupStep used out) fs1).dirs,
        properLead (out ++ [l]) e = true →
        dirEmpty (rest.foldl (cleanupStep used out) fs1) e = false := by
  intro rest
  induction rest with
  | nil => intro fs1 _ h e he hunder; exact h e he hunder
  | cons l2 rest2 ih =>
    intro fs1 hnot h e he hunder
    have hl2 : l2 ≠ l := fun heq => hnot (heq ▸ List.mem_cons_self _ _)
    have hnot2 : l ∉ rest2 := fun hm => hnot (List.mem_cons_of_mem _ hm)
    apply ih (cleanupStep used out fs1 l2) hnot2 ?_ e he hunder
    intro g hg hgunder
    unfold cleanupStep at hg ⊢
    by_cases hgrd : (out ++ [l2]) ∈ fs1.dirs
    · rw [if_pos (by simpa using hgrd)] at hg ⊢
      obtain ⟨hmem, hemp⟩ := @cleanupLang_other_lang used out l l2 fs1 g hl2 hgunder
      rw [hemp]
      exact h g (hmem.mp hg) hgunder
    · rw [if_neg (by simpa using hgrd)] at hg ⊢
      exact h g hg hgunder

theorem cleanupFold_no_empty {used : List Fpath} {out : Fpath} :
    ∀ (ls : List String) (fs : Fs), fsClosed fs = true → ls.Nodup →
      ∀ lang ∈ ls, ∀ e ∈ (ls.foldl (cleanupStep used out) fs).dirs,
        properLead (out ++ [lang]) e = true →
        dirEmpty (ls.foldl (cleanupStep used out) fs) e = false := by
  intro ls
  induction ls with
  | nil => intro fs _ _ lang h; exact absurd h (by simp)
  | cons l rest ih =>
    intro fs hclosed hnodup lang hl e he hunder
    rw [List.nodup_cons] at hnodup
    rcases List.mem_cons.mp hl with rfl | hmem
    · apply cleanupFold_preserve_no_empty rest (cleanupStep used out fs lang)
        hnodup.1 ?_ e he hunder
      intro g hg hgunder
      unfold cleanupStep at hg ⊢
      by_cases hgrd : (out ++ [lang]) ∈ fs.dirs
      · rw [if_pos (by simpa using hgrd)] at hg ⊢
        exact cleanupLang_no_empty g hg hgunder
      · rw [if_neg (by simpa using hgrd)] at hg ⊢
        have := (fsClosed_iff.mp hclosed).1 g hg (out ++ [lang]) hgunder
        exact absurd this hgrd
    · exact ih (cleanupStep used out fs l) (cleanupStep_closed hclosed) hnodup.2
        lang hmem e he hunder

/-!
## Claim C8 — run-level assembly
-/

theorem hasMdExt_ne_nil {p : Fpath} (h : hasMdExt p = true) : p ≠ [] := by
  intro he
  subst he
  simp [hasMdExt] at h

theorem hasMdExt_outPath {o : Fpath} {lang : String} {rel : Fpath} (h : rel ≠ []) :
    hasMdExt (outPath o lang rel) = hasMdExt rel := by
  unfold hasMdExt outPath
  rw [List.getLast?_append_cons, show (lang :: rel) = [lang] ++ rel from rfl,
    List.getLast?_append_of_ne_nil _ h]

theorem outPath_properLead {o : Fpath} {lang : String} {rel : Fpath} (h : rel ≠ []) :
    properLead (o ++ [lang]) (outPath o lang rel) = true := by
  unfold outPath
  rw [show o ++ lang :: rel = (o ++ [lang]) ++ rel from by simp]
  exact properLead_append h

theorem translateDirectory_fs_of_ok {t : Translator} {backend : Backend} {s o : Fpath}
    {docs : List (Fpath × List Nat)} {disk : Option CacheState} {fs0 : Fs}
    (h : (translateDirectory t backend s o docs disk fs0).err = none) :
    (translateDirectory t backend s o docs disk fs0).fs =
      cleanUpUnusedFiles (runFold backend o docs (runAcc0 t disk)).t o
        ((runFold backend o docs (runAcc0 t disk)).writes.foldl Fs.applyWrite fs0) := by
  rw [translateDirectory_err] at h
  unfold translateDirectory
  simp [h]

/-- C8: after a source document is deleted and a successful run is made
with a fresh Translator over the remaining documents, the cleanup pass
deletes the deleted document's artifact in every configured language's
output subtree (first conjunct), removes every directory left empty under
any language directory — children before parents, so emptiness cascades
(second conjunct) — and leaves every artifact whose path is in the
Live-Path Set (`used_output_paths`) exactly as the write phase left it
(third conjunct).  The input tree is well formed (ancestors of present
entries exist) and the configured languages are distinct. -/
theorem c8_cleanup_removes_deleted_doc_artifacts (t : Translator) (backend : Backend)
    (s o : Fpath) (docs : List (Fpath × List Nat)) (disk : Option CacheState) (fs0 : Fs)
    (dRel : Fpath)
    (hfresh : t.usedOutputPaths = [])
    (hlnodup : t.languages.Nodup)
    (hclosed : fsClosed fs0 = true)
    (hmd : hasMdExt dRel = true)
    (hgone : ∀ d ∈ docs, d.1 ≠ dRel)
    (hok : (translateDirectory t backend s o docs disk fs0).err = none) :
    (∀ lang ∈ t.languages,
      ((translateDirectory t backend s o docs disk fs0).fs).lookup (outPath o lang dRel)
        = none) ∧
    (∀ lang ∈ t.languages,
      ∀ e ∈ ((translateDirectory t backend s o docs disk fs0).fs).dirs,
        properLead (o ++ [lang]) e = true →
        dirEmpty (translateDirectory t backend s o docs disk fs0).fs e = false) ∧
    (∀ p ∈ ((translateDirectory t backend s o docs disk fs0).t).usedOutputPaths,
      ((translateDirectory t backend s o docs disk fs0).fs).lookup p =
        (((translateDirectory t backend s o docs disk fs0).writes).foldl Fs.applyWrite
          fs0).lookup p) := by
  have hfs := translateDirectory_fs_of_ok hok
  have hw := @translateDirectory_writes t backend s o docs disk fs0
  have ht := @translateDirectory_t t backend s o docs disk fs0
  have hcfg := runFold_t_config backend o docs (runAcc0 t disk)
  have hlangs : ((runFold backend o docs (runAcc0 t disk)).t).languages = t.languages :=
    hcfg.2.1
  have hclosed1 : fsClosed
      ((runFold backend o docs (runAcc0 t disk)).writes.foldl Fs.applyWrite fs0) = true :=
    applyWrites_closed hclosed
  have hrelne : dRel ≠ [] := hasMdExt_ne_nil hmd
  refine ⟨?_, ?_, ?_⟩
  · intro lang hlang
    rw [hfs]
    have hunder : properLead (o ++ [lang]) (outPath o lang dRel) = true :=
      outPath_properLead hrelne
    have hmdp : hasMdExt (outPath o lang dRel) = true := by
      rw [hasMdExt_outPath hrelne]
      exact hmd
    have hnotused : outPath o lang dRel ∉
        ((runFold backend o docs (runAcc0 t disk)).t).usedOutputPaths := by
      intro hmem
      rcases runFold_used_mem.mp hmem with hmem2 | ⟨d, hd, lang2, _, heq⟩
      · rw [show (runAcc0 t disk).t.usedOutputPaths = t.usedOutputPaths from rfl,
          hfresh] at hmem2
        exact absurd hmem2 (by simp)
      · exact hgone d hd (outPath_inj heq).2.symm
    have hremoved := cleanupFold_removes
      ((runFold backend o docs (runAcc0 t disk)).t).languages
      ((runFold backend o docs (runAcc0 t disk)).writes.foldl Fs.applyWrite fs0)
      hclosed1 lang (by rw [hlangs]; exact hlang) (outPath o lang dRel)
      hunder hmdp hnotused
    apply lookup_none_iff.mpr
    intro f hf he
    obtain ⟨f1, f2⟩ := f
    simp only at he
    subst he
    exact hremoved f2 hf
  · intro lang hlang e he hunder
    rw [hfs] at he ⊢
    exact cleanupFold_no_empty ((runFold backend o docs (runAcc0 t disk)).t).languages
      ((runFold backend o docs (runAcc0 t disk)).writes.foldl Fs.applyWrite fs0)
      hclosed1 (by rw [hlangs]; exact hlnodup) lang (by rw [hlangs]; exact hlang)
      e he hunder
  · intro p hp
    rw [ht] at hp
    rw [hfs, hw]
    exact cleanupFold_lookup_of_used hp

theorem c8_cleanup_removes_deleted_doc_artifacts_witness :
    (sampleTr.usedOutputPaths = [] ∧ sampleTr.languages.Nodup ∧
      fsClosed (translateDirectory sampleTr sampleBackend ["docs"] ["out"] sampleDocs
        none emptyFs).fs = true ∧
      hasMdExt ["sub", "b.md"] = true ∧
      (∀ d ∈ [((["a.md"], strBytes "# A") : Fpath × List Nat)], d.1 ≠ ["sub", "b.md"]) ∧
      (translateDirectory sampleTr sampleBackend ["docs"] ["out"]
        [(["a.md"], strBytes "# A")]
        (translateDirectory sampleTr sampleBackend ["docs"] ["out"] sampleDocs none
          emptyFs).disk
        (translateDirectory sampleTr sampleBackend ["docs"] ["out"] sampleDocs none
          emptyFs).fs).err = none) ∧
    (∀ lang ∈ sampleTr.languages,
      ((translateDirectory sampleTr sampleBackend ["docs"] ["out"]
        [(["a.md"], strBytes "# A")]
        (translateDirectory sampleTr sampleBackend ["docs"] ["out"] sampleDocs none
          emptyFs).disk
        (translateDirectory sampleTr sampleBackend ["docs"] ["out"] sampleDocs none
          emptyFs).fs).fs).lookup (outPath ["out"] lang ["sub", "b.md"]) = none) :=
  ⟨⟨rfl, by decide, by decide, by decide, by decide, by decide⟩,
    (c8_cleanup_removes_deleted_doc_artifacts sampleTr sampleBackend ["docs"] ["out"]
      [(["a.md"], strBytes "# A")]
      (translateDirectory sampleTr sampleBackend ["docs"] ["out"] sampleDocs none
        emptyFs).disk
      (translateDirectory sampleTr sampleBackend ["docs"] ["out"] sampleDocs none
        emptyFs).fs
      ["sub", "b.md"] rfl (by decide) (by decide) (by decide) (by decide)
      (by decide)).1⟩

end Mdxlate
